import Mathlib

/-!
Verification of the include-processing subsystem of a C/C++ source indexer
(`src/lib_cxx/utility/IncludeProcessing.cpp`).

The C++ code is shallowly embedded:
* `FilePath` and the filesystem primitives (`exists`, `makeCanonical`,
  `getAbsolute`, file contents, the `FileTree` lookup) are external utilities
  of the repository that are not part of the given sources; they are modelled
  from the spec (see the doc comments below).
* every `std::set` / `std::unordered_set` is modelled as a duplicate-free list
  in iteration order; the sorted unresolved-directive set (keyed by
  `IncludeDirectiveComparator`) is modelled as a list kept strictly sorted by
  the comparator with first-insertion-wins semantics, exactly as
  `std::set::insert` behaves.
* the unbounded `while` loops of the two discovery walks take an explicit
  fuel argument; a `completed` flag records whether the frontier was
  exhausted.  Termination is then the statement that a suitable fuel
  exhausts the frontier.
* the `float` progress values are modelled as rationals (the emitted values
  `i / quantileCount` and `1.0` are exact in both models).
-/

namespace IncludeProcessing

/-- Modelled from the spec (§3): the external `FilePath` value type.  A path
is an absolute-flag plus a list of name components; the underlying path
string of the C++ class is the components joined by separators. -/
structure FilePath where
  isAbs : Bool
  comps : List (List Char)
deriving DecidableEq

/-- Modelled from the spec: the empty `FilePath()`. -/
def FilePath.emptyPath : FilePath := ⟨false, []⟩

/-- Modelled from the spec: `FilePath::concatenate` / `getConcatenated`. -/
def FilePath.concat (p q : FilePath) : FilePath := ⟨p.isAbs, p.comps ++ q.comps⟩

/-- Modelled from the spec: `FilePath::getParentDirectory`. -/
def FilePath.parentDir (p : FilePath) : FilePath := ⟨p.isAbs, p.comps.dropLast⟩

/-- Boolean component-prefix test used by `FilePath.contains`. -/
def compsIsPrefix : List (List Char) → List (List Char) → Bool
  | [], _ => true
  | _ :: _, [] => false
  | a :: as, b :: bs => if a = b then compsIsPrefix as bs else false

/-- Modelled from the spec: `FilePath::contains`, the prefix/ancestor test. -/
def FilePath.contains (p q : FilePath) : Bool :=
  if p.isAbs = q.isAbs then compsIsPrefix p.comps q.comps else false

/-- Strict comparison on characters, from the linear order on `Char`. -/
def charLt (a b : Char) : Bool := decide (a < b)

/-- Lexicographic strict comparison on strings (as character lists). -/
def charListLt : List Char → List Char → Bool
  | _, [] => false
  | [], _ :: _ => true
  | a :: as, b :: bs => if a = b then charListLt as bs else charLt a b

/-- Lexicographic strict comparison on component lists. -/
def compsLt : List (List Char) → List (List Char) → Bool
  | _, [] => false
  | [], _ :: _ => true
  | a :: as, b :: bs => if a = b then compsLt as bs else charListLt a b

/-- Modelled from the spec: the total order on `FilePath` used as a set key
(`FilePath::operator<`, a lexicographic order on the path string). -/
def pathLt (p q : FilePath) : Bool :=
  if p.isAbs = q.isAbs then compsLt p.comps q.comps else q.isAbs && !p.isAbs

/-- Modelled from the spec (§3, §6): the external filesystem seen through the
`FilePath` and `TextAccess` utilities: existence tests, `getAbsolute`
(resolution against the working directory), `makeCanonical`
(`.`/`..`/symlink resolution), the lines of a file, and the `FileTree`
snapshot lookup `getAbsoluteRootPathForRelativeFilePath` (given the snapshot
root directory and a relative path, the absolute root under which the
relative path exists in the snapshot, or the empty path). -/
structure FileSystem where
  pathExists : FilePath → Bool
  canonical : FilePath → FilePath
  toAbsolute : FilePath → FilePath
  fileLines : FilePath → List (List Char)
  treeRootFor : FilePath → FilePath → FilePath

/-- Modelled from the spec: `utility::trim`, removing leading and trailing
whitespace from a line. -/
def trim (l : List Char) : List Char :=
  ((l.dropWhile Char.isWhitespace).reverse.dropWhile Char.isWhitespace).reverse

/-- Characters of a string up to (excluding) the first occurrence of the
delimiter; `none` when the delimiter does not occur. -/
def takeUntil (d : Char) : List Char → Option (List Char)
  | [] => none
  | c :: cs => if c = d then some [] else (takeUntil d cs).map (c :: ·)

/-- Characters of a string strictly after the first occurrence of the
delimiter; `none` when the delimiter does not occur. -/
def dropUntilAfter (d : Char) : List Char → Option (List Char)
  | [] => none
  | c :: cs => if c = d then some cs else dropUntilAfter d cs

/-- Modelled from the spec: `utility::substrBetween`, the content between the
first occurrence of the opening delimiter and the first following occurrence
of the closing delimiter, or the empty string when no such pair exists. -/
def substrBetween (s : List Char) (d1 d2 : Char) : List Char :=
  match dropUntilAfter d1 s with
  | none => []
  | some rest =>
    match takeUntil d2 rest with
    | none => []
    | some content => content

/-- Splitting a path string on separators, dropping empty segments
(auxiliary for `parsePath`). -/
def splitOnSlash : List Char → List Char → List (List Char)
  | cur, [] => if cur = [] then [] else [cur.reverse]
  | cur, c :: cs =>
    if c = '/' then
      if cur = [] then splitOnSlash [] cs else cur.reverse :: splitOnSlash [] cs
    else splitOnSlash (c :: cur) cs

/-- Modelled from the spec: the `FilePath(string)` constructor, reading a
path string into the absolute-flag-plus-components form. -/
def parsePath (s : List Char) : FilePath :=
  ⟨s.head? = some '/', splitOnSlash [] s⟩

/-- The `IncludeDirective` record (`utility/IncludeDirective.h`): the written
included path, the absolute including file, the 1-based line number, and the
angle-bracket flag. -/
structure IncludeDirective where
  includedFile : FilePath
  includingFile : FilePath
  lineNumber : Nat
  usesBrackets : Bool
deriving DecidableEq

/-- `IncludeDirectiveComparator`: directives compare by included file only. -/
def directiveLtB (a b : IncludeDirective) : Bool :=
  pathLt a.includedFile b.includedFile

/-- `std::set<IncludeDirective, IncludeDirectiveComparator>::insert`:
insertion into a strictly sorted list; an element equivalent to an already
present one (neither strictly smaller nor strictly greater) is not inserted. -/
def directiveSetInsert (x : IncludeDirective) : List IncludeDirective → List IncludeDirective
  | [] => [x]
  | y :: ys =>
    if directiveLtB x y then x :: y :: ys
    else if directiveLtB y x then y :: directiveSetInsert x ys
    else y :: ys

/-- `std::set<FilePath>::insert` modelled on iteration-ordered duplicate-free
lists: append when absent. -/
def insertPath (l : List FilePath) (x : FilePath) : List FilePath :=
  if x ∈ l then l else l ++ [x]

/-- `utility::toSet` and set-constructors from ranges: deduplicating a list
of paths in order. -/
def toPathSet (l : List FilePath) : List FilePath :=
  l.foldl insertPath []

/-- The body of one line scan of `IncludeProcessing::getIncludeDirectives`
(lines 177–196 of `IncludeProcessing.cpp`): trim, require a leading `#`,
trim the rest, require the `include` token, then take the first `<...>`
content and, failing that, the first `"..."` content. -/
def parseIncludeLine (line : List Char) : Option (List Char × Bool) :=
  let lineTrimmedToHash := trim line
  if lineTrimmedToHash.take 1 = ['#'] then
    let lineTrimmedToInclude := trim (lineTrimmedToHash.drop 1)
    if ("include".data).isPrefixOf lineTrimmedToInclude then
      let angleString := substrBetween lineTrimmedToInclude '<' '>'
      let includePair :=
        if angleString = [] then (substrBetween lineTrimmedToInclude '"' '"', false)
        else (angleString, true)
      if includePair.1 = [] then none else some includePair
    else none
  else none

/-- `IncludeProcessing::getIncludeDirectives(textAccess)` over the lines of a
file: each recognized line yields a directive carrying the written path, the
originating file and the 1-based line number. -/
def getIncludeDirectivesFromLines (filePath : FilePath) (lines : List (List Char)) :
    List IncludeDirective :=
  (lines.enum).foldl
    (fun acc il =>
      match parseIncludeLine il.2 with
      | some cb => acc ++ [⟨parsePath cb.1, filePath, il.1 + 1, cb.2⟩]
      | none => acc)
    []

/-- `IncludeProcessing::getIncludeDirectives(filePath)`: an empty result for
a non-existing file, otherwise the scan of its lines. -/
def getIncludeDirectives (fs : FileSystem) (filePath : FilePath) : List IncludeDirective :=
  if fs.pathExists filePath then getIncludeDirectivesFromLines filePath (fs.fileLines filePath)
  else []

/-- The loop over the header search directories in
`IncludeProcessing::resolveIncludeDirective` (lines 281–288): the first
directory whose concatenation with the included path exists. -/
def searchInDirectories (fs : FileSystem) (includedFilePath : FilePath) :
    List FilePath → FilePath
  | [] => FilePath.emptyPath
  | d :: ds =>
    let resolvedIncludePath := d.concat includedFilePath
    if fs.pathExists resolvedIncludePath then resolvedIncludePath
    else searchInDirectories fs includedFilePath ds

/-- `IncludeProcessing::resolveIncludeDirective` (lines 251–292): absolute
written path first, then relative to the including file's parent directory,
then the header search directories in iteration order. -/
def resolveIncludeDirective (fs : FileSystem) (includeDirective : IncludeDirective)
    (headerSearchDirectories : List FilePath) : FilePath :=
  let includedFilePath := includeDirective.includedFile
  if includedFilePath.isAbs = true ∧ fs.pathExists includedFilePath = true then
    includedFilePath
  else
    let resolvedIncludePath :=
      (includeDirective.includingFile.parentDir).concat includedFilePath
    if fs.pathExists resolvedIncludePath then resolvedIncludePath
    else searchInDirectories fs includedFilePath headerSearchDirectories

/-- `splitToQuantiles` (lines 23–43): push each source file, in iteration
order, onto quantile `i % quantileCount` (auxiliary: append at an index). -/
def pushAt : List (List FilePath) → Nat → FilePath → List (List FilePath)
  | [], _, _ => []
  | l :: ls, 0, x => (l ++ [x]) :: ls
  | l :: ls, n + 1, x => l :: pushAt ls n x

/-- The distribution loop of `splitToQuantiles` (lines 35–40). -/
def distributeRR (quantileCount : Nat) : Nat → List FilePath → List (List FilePath) →
    List (List FilePath)
  | _, [], acc => acc
  | i, p :: ps, acc => distributeRR quantileCount (i + 1) ps (pushAt acc (i % quantileCount) p)

/-- `splitToQuantiles` (lines 23–43): `max 1 (min desired size)` quantiles,
filled round-robin in the source set's iteration order. -/
def splitToQuantiles (sourceFilePaths : List FilePath) (desiredQuantileCount : Nat) :
    List (List FilePath) :=
  let quantileCount := max 1 (min desiredQuantileCount sourceFilePaths.length)
  distributeRR quantileCount 0 sourceFilePaths (List.replicate quantileCount [])

/-- The mutable state of one breadth-first discovery loop: the current
frontier (`unprocessedFilePaths` / `filePathsToProcess`), the processed-file
memo (as the list of stored key paths), the accumulator of the walk, and an
observation log recording each processed frontier together with a flag
telling whether it was the seed frontier of a shard. -/
structure LoopState (σ : Type) where
  frontier : List FilePath
  memo : List FilePath
  acc : σ
  log : List (Bool × List FilePath)
deriving DecidableEq

/-- The memo update of one loop iteration (the `std::transform` inserting
every frontier file's key, lines 110–114 and 214–218). -/
def stepMemo {σ : Type} (insertKey : FilePath → FilePath) (st : LoopState σ) :
    List FilePath :=
  st.frontier.foldl (fun m p => insertPath m (insertKey p)) st.memo

/-- The per-iteration walk over the frontier files: thread the accumulator
through `processFile` and collect the enqueue candidates into the
deduplicated next frontier. -/
def stepFold {σ : Type} (processFile : List FilePath → σ → FilePath → σ × List FilePath)
    (newMemo : List FilePath) : List FilePath → σ × List FilePath → σ × List FilePath
  | [], pr => pr
  | p :: ps, pr =>
    let fr := processFile newMemo pr.1 p
    stepFold processFile newMemo ps (fr.1, fr.2.foldl insertPath pr.2)

/-- One iteration of a discovery `while` loop: insert every frontier file's
memo key, process every frontier file in order (accumulating output and
enqueue candidates), and deduplicate the candidates into the next frontier.
`insertKey` is the memo-key computation and `processFile` the per-file body,
which receives the already-updated memo. -/
def bfsStep {σ : Type} (insertKey : FilePath → FilePath)
    (processFile : List FilePath → σ → FilePath → σ × List FilePath)
    (isSeed : Bool) (st : LoopState σ) : LoopState σ :=
  let newMemo := stepMemo insertKey st
  let res := stepFold processFile newMemo st.frontier (st.acc, ([] : List FilePath))
  ⟨res.2, newMemo, res.1, st.log ++ [(isSeed, st.frontier)]⟩

/-- The fuelled `while (!frontier.empty())` loop, continuing with non-seed
iterations. -/
def shardLoop {σ : Type} (insertKey : FilePath → FilePath)
    (processFile : List FilePath → σ → FilePath → σ × List FilePath) :
    Nat → LoopState σ → LoopState σ
  | 0, st => st
  | n + 1, st =>
    if st.frontier = [] then st
    else shardLoop insertKey processFile n (bfsStep insertKey processFile false st)

/-- One shard of a discovery walk: seed the frontier, run the first (seed)
iteration if the seed set is non-empty, then loop. -/
def runShard {σ : Type} (insertKey : FilePath → FilePath)
    (processFile : List FilePath → σ → FilePath → σ × List FilePath)
    (fuel : Nat) (seeds : List FilePath) (memo : List FilePath) (acc : σ)
    (log : List (Bool × List FilePath)) : LoopState σ :=
  if seeds = [] then ⟨[], memo, acc, log⟩
  else shardLoop insertKey processFile fuel
    (bfsStep insertKey processFile true ⟨seeds, memo, acc, log⟩)

/-- Memo key of `doGetUnresolvedIncludeDirectives` (line 217):
`p.getAbsolute().makeCanonical().str()`. -/
def unresolvedInsertKey (fs : FileSystem) (p : FilePath) : FilePath :=
  fs.canonical (fs.toAbsolute p)

/-- The loop over one file's directives in `doGetUnresolvedIncludeDirectives`
(lines 224–242): resolve each directive and canonicalize; an empty result is
appended to the unresolved list; a non-empty result not yet in the memo is an
enqueue candidate when some indexed path contains it. -/
def unresolvedDirLoop (fs : FileSystem) (indexedPaths headerSearchDirectories memo : List FilePath) :
    List IncludeDirective → List IncludeDirective × List FilePath →
    List IncludeDirective × List FilePath
  | [], st => st
  | includeDirective :: rest, st =>
    let resolvedIncludePath :=
      fs.canonical (resolveIncludeDirective fs includeDirective headerSearchDirectories)
    let st' :=
      if resolvedIncludePath = FilePath.emptyPath then (st.1 ++ [includeDirective], st.2)
      else if resolvedIncludePath ∈ memo then st
      else if indexedPaths.any (fun indexedPath => indexedPath.contains resolvedIncludePath) then
        (st.1, st.2 ++ [resolvedIncludePath])
      else st
    unresolvedDirLoop fs indexedPaths headerSearchDirectories memo rest st'

/-- The per-file body of `doGetUnresolvedIncludeDirectives` (lines 224–242). -/
def unresolvedProcessFile (fs : FileSystem) (indexedPaths headerSearchDirectories : List FilePath)
    (memo : List FilePath) (acc : List IncludeDirective) (filePath : FilePath) :
    List IncludeDirective × List FilePath :=
  unresolvedDirLoop fs indexedPaths headerSearchDirectories memo
    (getIncludeDirectives fs filePath) (acc, [])

/-- The `FileTree` fallback loop of `getHeaderSearchDirectories`
(lines 127–140): walk the snapshots in order; a snapshot giving a non-empty
root whose concatenation with the included path exists records that root and
stops the walk; a non-empty root with a non-existing concatenation leaves the
concatenation as the provisional found path (overwritten by later non-empty
roots) without recording anything. -/
def treeLookup (fs : FileSystem) (includedFilePath : FilePath) :
    List FilePath → List FilePath → List FilePath × FilePath
  | [], acc => (acc, FilePath.emptyPath)
  | searchedPath :: rest, acc =>
    let rootPath := fs.treeRootFor searchedPath includedFilePath
    if rootPath = FilePath.emptyPath then treeLookup fs includedFilePath rest acc
    else
      let foundIncludedPath := rootPath.concat includedFilePath
      if fs.pathExists foundIncludedPath then (insertPath acc rootPath, foundIncludedPath)
      else
        let later := treeLookup fs includedFilePath rest acc
        if later.2 = FilePath.emptyPath then (later.1, foundIncludedPath) else later

/-- Memo key of `getHeaderSearchDirectories` (line 113):
`p.getAbsolute().str()`. -/
def headerInsertKey (fs : FileSystem) (p : FilePath) : FilePath := fs.toAbsolute p

/-- The loop over one file's directives in `getHeaderSearchDirectories`
(lines 120–148): resolve each directive against the current header search
directories, fall back to the snapshot lookup when that fails, and make the
found path an enqueue candidate when it exists and its key is not in the
memo.  The accumulator is the set of discovered header search directories. -/
def headerDirLoop (fs : FileSystem) (searchedPaths currentHeaderSearchDirectories memo : List FilePath) :
    List IncludeDirective → List FilePath × List FilePath → List FilePath × List FilePath
  | [], st => st
  | includeDirective :: rest, st =>
    let includedFilePath := includeDirective.includedFile
    let found := resolveIncludeDirective fs includeDirective currentHeaderSearchDirectories
    let af :=
      if found = FilePath.emptyPath then treeLookup fs includedFilePath searchedPaths st.1
      else (st.1, found)
    let st' :=
      if fs.pathExists af.2 = true ∧ af.2 ∉ memo then (af.1, st.2 ++ [af.2])
      else (af.1, st.2)
    headerDirLoop fs searchedPaths currentHeaderSearchDirectories memo rest st'

/-- The per-file body of `getHeaderSearchDirectories` (lines 120–148). -/
def headerProcessFile (fs : FileSystem) (searchedPaths currentHeaderSearchDirectories : List FilePath)
    (memo : List FilePath) (acc : List FilePath) (filePath : FilePath) :
    List FilePath × List FilePath :=
  headerDirLoop fs searchedPaths currentHeaderSearchDirectories memo
    (getIncludeDirectives fs filePath) (acc, [])

/-- The observable outcome of one `getUnresolvedIncludeDirectives` call: the
returned directive list, the sequence of progress values emitted, the final
memo, the log of processed frontiers, and whether every shard's walk
exhausted its frontier within the given fuel. -/
structure UnresolvedResult where
  directives : List IncludeDirective
  progressLog : List Rat
  memo : List FilePath
  traceLog : List (Bool × List FilePath)
  completed : Bool
deriving DecidableEq

/-- Fold state of the shard loop of `getUnresolvedIncludeDirectives`. -/
structure UDriveState where
  memo : List FilePath
  traceLog : List (Bool × List FilePath)
  resultSet : List IncludeDirective
  progressLog : List Rat
  completed : Bool
deriving DecidableEq

/-- One iteration of the shard loop of `getUnresolvedIncludeDirectives`
(lines 58–69): report `i / quantileCount`, run the shard's walk with the
shared memo, and copy the shard's unresolved vector into the sorted set. -/
def uDriveStep (fs : FileSystem) (indexedPaths headerSearchDirectories : List FilePath)
    (fuel qn : Nat) (st : UDriveState) (iq : Nat × List FilePath) : UDriveState :=
  let res := runShard (unresolvedInsertKey fs)
    (unresolvedProcessFile fs indexedPaths headerSearchDirectories)
    fuel (toPathSet iq.2) st.memo ([] : List IncludeDirective) st.traceLog
  ⟨res.memo, res.log,
   res.acc.foldl (fun s d => directiveSetInsert d s) st.resultSet,
   st.progressLog ++ [(iq.1 : Rat) / (qn : Rat)],
   st.completed && decide (res.frontier = [])⟩

/-- `IncludeProcessing::getUnresolvedIncludeDirectives` (lines 46–81): split
the sources into quantiles, report `i / quantileCount` before shard `i`, run
the per-shard walk with the shared memo, merge each shard's unresolved vector
into the comparator-sorted set, and report `1.0` at the end. -/
def getUnresolvedIncludeDirectives (fs : FileSystem) (fuel : Nat)
    (sourceFilePaths indexedPaths headerSearchDirectories : List FilePath)
    (desiredQuantileCount : Nat) : UnresolvedResult :=
  let quantiles := splitToQuantiles sourceFilePaths desiredQuantileCount
  let fin := quantiles.enum.foldl
    (uDriveStep fs indexedPaths headerSearchDirectories fuel quantiles.length)
    ⟨[], [], [], [], true⟩
  ⟨fin.resultSet, fin.progressLog ++ [(1 : Rat)], fin.memo, fin.traceLog, fin.completed⟩

/-- The observable outcome of one `getHeaderSearchDirectories` call. -/
structure HeaderSearchResult where
  directories : List FilePath
  progressLog : List Rat
  memo : List FilePath
  traceLog : List (Bool × List FilePath)
  completed : Bool
deriving DecidableEq

/-- Fold state of the shard loop of `getHeaderSearchDirectories`. -/
structure HDriveState where
  dirs : List FilePath
  memo : List FilePath
  traceLog : List (Bool × List FilePath)
  progressLog : List Rat
  completed : Bool
deriving DecidableEq

/-- One iteration of the shard loop of `getHeaderSearchDirectories`
(lines 102–154): report `i / quantileCount` and run the shard's walk with the
shared memo and the accumulating directory set. -/
def hDriveStep (fs : FileSystem) (searchedPaths currentHeaderSearchDirectories : List FilePath)
    (fuel qn : Nat) (st : HDriveState) (iq : Nat × List FilePath) : HDriveState :=
  let res := runShard (headerInsertKey fs)
    (headerProcessFile fs searchedPaths currentHeaderSearchDirectories)
    fuel (toPathSet iq.2) st.memo st.dirs st.traceLog
  ⟨res.acc, res.memo, res.log,
   st.progressLog ++ [(iq.1 : Rat) / (qn : Rat)],
   st.completed && decide (res.frontier = [])⟩

/-- `IncludeProcessing::getHeaderSearchDirectories` (lines 83–159): report
`0.0`, build the snapshot trees, then walk the quantiles with the shared memo
and the accumulating directory set, reporting `i / quantileCount` before
shard `i` and `1.0` at the end. -/
def getHeaderSearchDirectories (fs : FileSystem) (fuel : Nat)
    (sourceFilePaths searchedPaths currentHeaderSearchDirectories : List FilePath)
    (desiredQuantileCount : Nat) : HeaderSearchResult :=
  let quantiles := splitToQuantiles sourceFilePaths desiredQuantileCount
  let fin := quantiles.enum.foldl
    (hDriveStep fs searchedPaths currentHeaderSearchDirectories fuel quantiles.length)
    ⟨[], [], [], [(0 : Rat)], true⟩
  ⟨fin.dirs, fin.progressLog ++ [(1 : Rat)], fin.memo, fin.traceLog, fin.completed⟩

/-! ### Specification twins

Definitions below named `...Spec` follow the words of the specification
(§4.1, §4.2) rather than the C++ control flow; the refinement theorems
compare them with the source embeddings above. -/

/-- The resolution candidates in the spec's precedence order (§4.2): the
written path itself when absolute, then the including file's parent
directory concatenated with the written path, then each search directory
concatenated with the written path, in iteration order. -/
def resolveCandidates (includeDirective : IncludeDirective)
    (headerSearchDirectories : List FilePath) : List FilePath :=
  (if includeDirective.includedFile.isAbs then [includeDirective.includedFile] else []) ++
    [(includeDirective.includingFile.parentDir).concat includeDirective.includedFile] ++
    headerSearchDirectories.map (fun d => d.concat includeDirective.includedFile)

/-- Resolution as the spec words it: the first existing candidate in
precedence order, or the empty path when none exists. -/
def resolveIncludeDirectiveSpec (fs : FileSystem) (includeDirective : IncludeDirective)
    (headerSearchDirectories : List FilePath) : FilePath :=
  ((resolveCandidates includeDirective headerSearchDirectories).find? fs.pathExists).getD
    FilePath.emptyPath

/-- Line recognition as the spec words it (§4.1): after trimming the line
starts with `#`, the re-trimmed remainder starts with the token `include`,
and the remainder contains a first `<...>` pair with non-empty content or,
failing that, a first `"..."` pair with non-empty content. -/
def specLineDirective (line : List Char) : Option (List Char × Bool) :=
  let t := trim line
  let rem := trim (t.drop 1)
  if t.head? = some '#' ∧ ("include".data).isPrefixOf rem = true then
    if substrBetween rem '<' '>' ≠ [] then some (substrBetween rem '<' '>', true)
    else if substrBetween rem '"' '"' ≠ [] then some (substrBetween rem '"' '"', false)
    else none
  else none

/-! ### Observables used by the theorems -/

/-- All files whose directives were extracted during a run, in order. -/
def logFiles (log : List (Bool × List FilePath)) : List FilePath :=
  (log.map (·.2)).flatten

/-- The files extracted by include-expansion (the non-seed frontiers). -/
def expansionFiles (log : List (Bool × List FilePath)) : List FilePath :=
  ((log.filter (fun e => !e.1)).map (·.2)).flatten

/-- The number of universe paths not yet in the memo: the termination
measure of the discovery loops. -/
def memoDeficit (u memo : List FilePath) : Nat :=
  (u.filter (fun p => !(p ∈ memo : Bool))).length

/-- The round-robin shard predicted by the spec: the input files at the
positions congruent to `j` modulo the shard count. -/
def roundRobinShard (sourceFilePaths : List FilePath) (quantileCount j : Nat) :
    List FilePath :=
  ((sourceFilePaths.enum.filter (fun p => p.1 % quantileCount = j)).map Prod.snd)

/-! ### Concrete instances for counterexamples and witnesses -/

/-- Concrete path `/a`. -/
def exA : FilePath := ⟨true, [['a']]⟩

/-- Concrete path `/b`. -/
def exB : FilePath := ⟨true, [['b']]⟩

/-- Concrete filesystem: `/a` and `/b` exist, `/a` contains
`#include "/b"`, `/b` contains `#include <missing>`; canonicalization and
absolutization are the identity. -/
def fsCX : FileSystem where
  pathExists p := p = exA ∨ p = exB
  canonical := id
  toAbsolute := id
  fileLines p :=
    if p = exA then ["#include \"/b\"".data]
    else if p = exB then ["#include <missing>".data] else []
  treeRootFor _ _ := FilePath.emptyPath

/-- The run of `getUnresolvedIncludeDirectives` over the sources
`{/a, /b}` with two shards, the root `/` as indexed boundary and no search
directories: `/b` is reached and expanded from shard 0 and then extracted
again as the seed of shard 1. -/
def cxRun : UnresolvedResult :=
  getUnresolvedIncludeDirectives fsCX 4 [exA, exB] [⟨true, []⟩] [] 2

/-! ### Basic lemmas about the set models -/

theorem mem_insertPath {l : List FilePath} {x y : FilePath} :
    y ∈ insertPath l x ↔ y ∈ l ∨ y = x := by
  unfold insertPath
  by_cases h : x ∈ l
  · simp only [if_pos h]
    exact ⟨Or.inl, fun hy => hy.elim id (fun e => e ▸ h)⟩
  · simp [if_neg h]

theorem nodup_insertPath {l : List FilePath} {x : FilePath} (h : l.Nodup) :
    (insertPath l x).Nodup := by
  unfold insertPath
  by_cases hx : x ∈ l
  · simpa [hx]
  · simp only [if_neg hx]
    refine List.Nodup.append h (List.nodup_singleton x) ?_
    intro a ha hb
    simp only [List.mem_singleton] at hb
    exact hx (hb ▸ ha)

theorem mem_foldl_insertPath (l : List FilePath) :
    ∀ (m : List FilePath) (y : FilePath), y ∈ l.foldl insertPath m ↔ y ∈ m ∨ y ∈ l := by
  induction l with
  | nil => intro m y; simp
  | cons a as ih =>
    intro m y
    simp only [List.foldl_cons]
    rw [ih, mem_insertPath, List.mem_cons]
    tauto

theorem nodup_foldl_insertPath (l : List FilePath) :
    ∀ (m : List FilePath), m.Nodup → (l.foldl insertPath m).Nodup := by
  induction l with
  | nil => intro m h; simpa
  | cons a as ih => intro m h; exact ih _ (nodup_insertPath h)

theorem mem_toPathSet {l : List FilePath} {y : FilePath} : y ∈ toPathSet l ↔ y ∈ l := by
  unfold toPathSet
  rw [mem_foldl_insertPath]
  simp

theorem nodup_toPathSet (l : List FilePath) : (toPathSet l).Nodup :=
  nodup_foldl_insertPath l [] List.nodup_nil

theorem foldl_preserve {α β : Type} {P : β → Prop} (f : β → α → β) :
    ∀ (l : List α) (s : β), (∀ s x, x ∈ l → P s → P (f s x)) → P s → P (l.foldl f s) := by
  intro l
  induction l with
  | nil => intro s _ h; simpa
  | cons a as ih =>
    intro s hstep h
    exact ih _ (fun s' x hx => hstep s' x (List.mem_cons_of_mem a hx))
      (hstep s a (List.mem_cons_self a as) h)

theorem snd_mem_of_mem_enum {α : Type} {l : List α} {p : Nat × α} (h : p ∈ l.enum) :
    p.2 ∈ l := by
  rcases p with ⟨i, x⟩
  exact List.mem_enum_iff_getElem?.mp h |> fun hg => List.getElem?_mem hg

/-! ### C8: a non-existing file yields no directives -/

/-- C8: for every file path that does not exist on disk,
`getIncludeDirectives` returns an empty sequence rather than signalling an
error. -/
theorem getIncludeDirectives_of_not_exists (fs : FileSystem) (filePath : FilePath)
    (h : fs.pathExists filePath = false) : getIncludeDirectives fs filePath = [] := by
  simp [getIncludeDirectives, h]

theorem getIncludeDirectives_of_not_exists_witness :
    fsCX.pathExists FilePath.emptyPath = false ∧
      getIncludeDirectives fsCX FilePath.emptyPath = [] :=
  ⟨by decide, getIncludeDirectives_of_not_exists fsCX FilePath.emptyPath (by decide)⟩

/-! ### C1: resolution precedence -/

theorem searchInDirectories_eq_find (fs : FileSystem) (includedFilePath : FilePath) :
    ∀ dirs : List FilePath,
      searchInDirectories fs includedFilePath dirs =
        ((dirs.map (fun d => d.concat includedFilePath)).find? fs.pathExists).getD
          FilePath.emptyPath := by
  intro dirs
  induction dirs with
  | nil => rfl
  | cons d ds ih =>
    simp only [searchInDirectories, List.map_cons, List.find?_cons]
    by_cases h : fs.pathExists (d.concat includedFilePath) <;> simp [h, ih]

/-- C1: `resolveIncludeDirective` returns the first match in the fixed
precedence order (absolute written path, then relative to the including
file's parent directory, then the search directories in iteration order,
else the empty path); in particular a directive resolvable both relative to
its including file and via a search root resolves relative to the including
file, regardless of angle-bracket or quote form (the statement quantifies
over every directive, hence over both forms). -/
theorem resolveIncludeDirective_precedence (fs : FileSystem) (d : IncludeDirective)
    (dirs : List FilePath) :
    resolveIncludeDirective fs d dirs = resolveIncludeDirectiveSpec fs d dirs ∧
    (¬(d.includedFile.isAbs = true ∧ fs.pathExists d.includedFile = true) →
      fs.pathExists ((d.includingFile.parentDir).concat d.includedFile) = true →
      resolveIncludeDirective fs d dirs =
        (d.includingFile.parentDir).concat d.includedFile) := by
  constructor
  · unfold resolveIncludeDirective resolveIncludeDirectiveSpec resolveCandidates
    by_cases h1 : d.includedFile.isAbs = true ∧ fs.pathExists d.includedFile = true
    · obtain ⟨ha, he⟩ := h1
      simp [ha, he]
    · rw [if_neg h1]
      by_cases ha : d.includedFile.isAbs = true
      · have he : fs.pathExists d.includedFile = false := by
          cases hx : fs.pathExists d.includedFile
          · rfl
          · exact absurd ⟨ha, hx⟩ h1
        by_cases h2 : fs.pathExists ((d.includingFile.parentDir).concat d.includedFile)
        · simp [ha, he, h2]
        · simp [ha, he, h2, searchInDirectories_eq_find]
      · by_cases h2 : fs.pathExists ((d.includingFile.parentDir).concat d.includedFile)
        · simp [ha, h2]
        · simp [ha, h2, searchInDirectories_eq_find]
  · intro h1 h2
    unfold resolveIncludeDirective
    rw [if_neg h1, if_pos h2]

theorem resolveIncludeDirective_precedence_witness :
    ¬((⟨false, [['b']]⟩ : FilePath).isAbs = true ∧
        fsCX.pathExists ⟨false, [['b']]⟩ = true) ∧
    fsCX.pathExists ((exA.parentDir).concat ⟨false, [['b']]⟩) = true ∧
    resolveIncludeDirective fsCX ⟨⟨false, [['b']]⟩, exA, 1, true⟩ [⟨true, []⟩] =
      (exA.parentDir).concat ⟨false, [['b']]⟩ :=
  ⟨by decide, by decide,
    (resolveIncludeDirective_precedence fsCX ⟨⟨false, [['b']]⟩, exA, 1, true⟩
      [⟨true, []⟩]).2 (by decide) (by decide)⟩

/-! ### C7: line recognition -/

theorem parseIncludeLine_eq_spec (line : List Char) :
    parseIncludeLine line = specLineDirective line := by
  unfold parseIncludeLine specLineDirective
  cases htl : trim line with
  | nil => simp
  | cons c cs =>
    by_cases hc : c = '#'
    · subst hc
      by_cases hinc : ("include".data).isPrefixOf (trim cs) = true
      · simp only [List.take, List.head?, List.drop, hinc, and_true, if_pos rfl]
        by_cases hang : substrBetween (trim cs) '<' '>' = []
        · by_cases hq : substrBetween (trim cs) '"' '"' = []
          · simp [hang, hq]
          · simp [hang, hq]
        · simp [hang]
      · simp [List.take, List.head?, List.drop, hinc]
    · simp [List.take, List.head?, hc, fun h : some c = some '#' => hc (Option.some.inj h)]

theorem getIncludeDirectivesFromLines_foldl_aux (filePath : FilePath) :
    ∀ (l : List (Nat × List Char)) (acc : List IncludeDirective),
      l.foldl
        (fun acc il =>
          match parseIncludeLine il.2 with
          | some cb => acc ++ [⟨parsePath cb.1, filePath, il.1 + 1, cb.2⟩]
          | none => acc)
        acc =
      acc ++ l.filterMap
        (fun il => (parseIncludeLine il.2).map
          (fun cb => ⟨parsePath cb.1, filePath, il.1 + 1, cb.2⟩)) := by
  intro l
  induction l with
  | nil => intro acc; simp
  | cons a as ih =>
    intro acc
    simp only [List.foldl_cons, List.filterMap_cons]
    cases h : parseIncludeLine a.2 with
    | none => simp [h, ih]
    | some cb => simp [h, ih]

/-- C7: for every existing file, the produced directives are exactly those
of the lines recognized by the spec's conditions (trimmed line starts with
`#`, re-trimmed remainder starts with `include`, first non-empty `<...>`
content or, failing that, first non-empty `"..."` content), each recording
the content as written path, the 1-based physical line number and the
bracket form; all other lines produce nothing. -/
theorem getIncludeDirectives_characterization (fs : FileSystem) (filePath : FilePath)
    (h : fs.pathExists filePath = true) :
    getIncludeDirectives fs filePath =
      (fs.fileLines filePath).enum.filterMap
        (fun il => (specLineDirective il.2).map
          (fun cb => ⟨parsePath cb.1, filePath, il.1 + 1, cb.2⟩)) := by
  unfold getIncludeDirectives getIncludeDirectivesFromLines
  rw [if_pos h, getIncludeDirectivesFromLines_foldl_aux]
  simp [parseIncludeLine_eq_spec]

theorem getIncludeDirectives_characterization_witness :
    fsCX.pathExists exA = true ∧
    getIncludeDirectives fsCX exA =
      (fsCX.fileLines exA).enum.filterMap
        (fun il => (specLineDirective il.2).map
          (fun cb => ⟨parsePath cb.1, exA, il.1 + 1, cb.2⟩)) :=
  ⟨by decide, getIncludeDirectives_characterization fsCX exA (by decide)⟩

/-! ### C10: empty source set -/

theorem splitToQuantiles_nil (k : Nat) : splitToQuantiles [] k = [[]] := by
  simp [splitToQuantiles, distributeRR, Nat.min_zero, List.replicate]

/-- C10: on an empty source set `splitToQuantiles` returns exactly one empty
shard for every desired shard count, and `getUnresolvedIncludeDirectives`
returns an empty result while still reporting progress `0` and then `1`. -/
theorem emptySourceSet_behavior :
    (∀ k : Nat, splitToQuantiles [] k = [[]]) ∧
    ∀ (fs : FileSystem) (fuel : Nat) (indexedPaths headerSearchDirectories : List FilePath)
      (k : Nat),
      (getUnresolvedIncludeDirectives fs fuel [] indexedPaths headerSearchDirectories
        k).directives = [] ∧
      (getUnresolvedIncludeDirectives fs fuel [] indexedPaths headerSearchDirectories
        k).progressLog = [0, 1] := by
  refine ⟨splitToQuantiles_nil, ?_⟩
  intro fs fuel indexedPaths headerSearchDirectories k
  constructor <;>
    simp [getUnresolvedIncludeDirectives, splitToQuantiles_nil, uDriveStep, runShard,
      toPathSet, List.enum, List.enumFrom]

/-! ### C5: the quantile partitioner -/

theorem pushAt_length : ∀ (acc : List (List FilePath)) (k : Nat) (x : FilePath),
    (pushAt acc k x).length = acc.length := by
  intro acc
  induction acc with
  | nil => intro k x; rfl
  | cons l ls ih =>
    intro k x
    cases k with
    | zero => rfl
    | succ m => simp [pushAt, ih]

theorem pushAt_getElem? : ∀ (acc : List (List FilePath)) (k : Nat) (x : FilePath) (j : Nat),
    (pushAt acc k x)[j]? = if j = k then (acc[j]?).map (· ++ [x]) else acc[j]? := by
  intro acc
  induction acc with
  | nil => intro k x j; simp [pushAt]
  | cons l ls ih =>
    intro k x j
    cases k with
    | zero =>
      cases j with
      | zero => simp [pushAt]
      | succ n => simp [pushAt]
    | succ m =>
      cases j with
      | zero => simp [pushAt]
      | succ n => simpa [pushAt] using ih m x n

theorem distributeRR_length (qc : Nat) :
    ∀ (ps : List FilePath) (i : Nat) (acc : List (List FilePath)),
      (distributeRR qc i ps acc).length = acc.length := by
  intro ps
  induction ps with
  | nil => intro i acc; rfl
  | cons p ps' ih => intro i acc; simp [distributeRR, ih, pushAt_length]

theorem distributeRR_getElem? (qc : Nat) :
    ∀ (ps : List FilePath) (i : Nat) (acc : List (List FilePath)) (j : Nat),
      (distributeRR qc i ps acc)[j]? =
        (acc[j]?).map
          (· ++ ((ps.enumFrom i).filter (fun p => p.1 % qc = j)).map Prod.snd) := by
  intro ps
  induction ps with
  | nil =>
    intro i acc j
    cases hj : acc[j]? <;> simp [distributeRR, List.enumFrom, hj]
  | cons p ps' ih =>
    intro i acc j
    simp only [distributeRR, List.enumFrom]
    rw [ih, pushAt_getElem?]
    by_cases h : i % qc = j
    · rw [if_pos h.symm]
      cases hj : acc[j]? with
      | none => simp
      | some v => simp [List.filter_cons, h]
    · rw [if_neg (fun e => h e.symm)]
      cases hj : acc[j]? with
      | none => simp
      | some v => simp [List.filter_cons, h]

theorem length_splitToQuantiles (src : List FilePath) (k : Nat) :
    (splitToQuantiles src k).length = max 1 (min k src.length) := by
  simp [splitToQuantiles, distributeRR_length]

theorem splitToQuantiles_getElem? (src : List FilePath) (k j : Nat) :
    (splitToQuantiles src k)[j]? =
      if j < max 1 (min k src.length) then
        some (roundRobinShard src (max 1 (min k src.length)) j)
      else none := by
  unfold splitToQuantiles roundRobinShard
  rw [distributeRR_getElem?]
  by_cases h : j < max 1 (min k src.length)
  · rw [List.getElem?_replicate, if_pos h, if_pos h]
    simp [List.enum]
  · rw [List.getElem?_replicate, if_neg h, if_neg h]
    rfl

theorem flatten_pushAt : ∀ (acc : List (List FilePath)) (k : Nat) (x : FilePath),
    k < acc.length → (pushAt acc k x).flatten.Perm (acc.flatten ++ [x]) := by
  intro acc
  induction acc with
  | nil => intro k x hk; exact absurd hk (by simp)
  | cons l ls ih =>
    intro k x hk
    cases k with
    | zero =>
      simp only [pushAt, List.flatten_cons, List.append_assoc]
      exact List.Perm.append_left l (List.perm_append_comm)
    | succ m =>
      simp only [pushAt, List.flatten_cons]
      have := ih m x (by simpa using hk)
      calc (l ++ (pushAt ls m x).flatten).Perm (l ++ (ls.flatten ++ [x])) :=
            List.Perm.append_left l this
        _ = (l ++ ls.flatten) ++ [x] := by rw [List.append_assoc]

theorem distributeRR_flatten_perm (qc : Nat) (hq : 0 < qc) :
    ∀ (ps : List FilePath) (i : Nat) (acc : List (List FilePath)),
      acc.length = qc → (distributeRR qc i ps acc).flatten.Perm (acc.flatten ++ ps) := by
  intro ps
  induction ps with
  | nil => intro i acc _; simp [distributeRR]
  | cons p ps' ih =>
    intro i acc hlen
    have h1 : (distributeRR qc (i + 1) ps' (pushAt acc (i % qc) p)).flatten.Perm
        ((pushAt acc (i % qc) p).flatten ++ ps') :=
      ih (i + 1) _ (by rw [pushAt_length]; exact hlen)
    have h2 : (pushAt acc (i % qc) p).flatten.Perm (acc.flatten ++ [p]) :=
      flatten_pushAt acc (i % qc) p (by rw [hlen]; exact Nat.mod_lt i hq)
    refine (h1.trans (h2.append_right ps')).trans ?_
    rw [List.append_assoc]
    rfl

theorem replicate_nil_flatten : ∀ n : Nat, (List.replicate n ([] : List FilePath)).flatten = [] := by
  intro n
  induction n with
  | zero => rfl
  | succ m ih => simp [List.replicate, ih]

theorem splitToQuantiles_flatten_perm (src : List FilePath) (k : Nat) :
    (splitToQuantiles src k).flatten.Perm src := by
  unfold splitToQuantiles
  have := distributeRR_flatten_perm (max 1 (min k src.length)) (by simp) src 0
    (List.replicate (max 1 (min k src.length)) []) (by simp)
  rwa [replicate_nil_flatten] at this

/-- C5 counterexample: on the empty source set (size `N = 0`) with desired
shard count `K = 3` the partitioner produces one shard, which is not between
`1` and `min K N = 0` as the claim states. -/
theorem splitToQuantiles_empty_counterexample :
    (splitToQuantiles [] 3).length = 1 ∧
      ¬((splitToQuantiles [] 3).length ≤ min 3 (List.length ([] : List FilePath))) := by
  constructor
  · rfl
  · intro h
    simp [length_splitToQuantiles] at h

/-- C5 (amended): for a non-empty duplicate-free source list and a positive
desired shard count, the partitioner produces between `1` and `min K N`
shards (in general exactly `max 1 (min K N)`); shard `j` consists of the
files at input positions congruent to `j` modulo the shard count, in order;
the shards are pairwise disjoint and their concatenation is a permutation of
the input. -/
theorem splitToQuantiles_partition (src : List FilePath) (k : Nat)
    (hnd : src.Nodup) (hk : 1 ≤ k) (hn : 1 ≤ src.length) :
    (1 ≤ (splitToQuantiles src k).length ∧
      (splitToQuantiles src k).length ≤ min k src.length) ∧
    (∀ j, (splitToQuantiles src k)[j]? =
      if j < (splitToQuantiles src k).length then
        some (roundRobinShard src (splitToQuantiles src k).length j)
      else none) ∧
    (splitToQuantiles src k).flatten.Perm src ∧
    List.Pairwise List.Disjoint (splitToQuantiles src k) := by
  have hmin : 1 ≤ min k src.length := le_min hk hn
  have hmax : max 1 (min k src.length) = min k src.length := Nat.max_eq_right hmin
  refine ⟨⟨?_, ?_⟩, ?_, splitToQuantiles_flatten_perm src k, ?_⟩
  · rw [length_splitToQuantiles]
    exact Nat.le_max_left 1 _
  · rw [length_splitToQuantiles, hmax]
  · intro j
    rw [length_splitToQuantiles, splitToQuantiles_getElem?]
  · have hnodupflat : (splitToQuantiles src k).flatten.Nodup :=
      ((splitToQuantiles_flatten_perm src k).nodup_iff).mpr hnd
    exact (List.nodup_flatten.mp hnodupflat).2

theorem splitToQuantiles_partition_witness :
    ([exA, exB] : List FilePath).Nodup ∧ 1 ≤ 2 ∧ 1 ≤ ([exA, exB] : List FilePath).length ∧
    ((1 ≤ (splitToQuantiles [exA, exB] 2).length ∧
        (splitToQuantiles [exA, exB] 2).length ≤ min 2 ([exA, exB] : List FilePath).length) ∧
      (∀ j, (splitToQuantiles [exA, exB] 2)[j]? =
        if j < (splitToQuantiles [exA, exB] 2).length then
          some (roundRobinShard [exA, exB] (splitToQuantiles [exA, exB] 2).length j)
        else none) ∧
      (splitToQuantiles [exA, exB] 2).flatten.Perm [exA, exB] ∧
      List.Pairwise List.Disjoint (splitToQuantiles [exA, exB] 2)) :=
  ⟨by decide, by decide, by decide,
    splitToQuantiles_partition [exA, exB] 2 (by decide) (by decide) (by decide)⟩

/-! ### C6: progress reporting -/

theorem foldl_uDriveStep_progressLog (fs : FileSystem)
    (indexedPaths headerSearchDirectories : List FilePath) (fuel qn : Nat) :
    ∀ (l : List (Nat × List FilePath)) (st : UDriveState),
      (l.foldl (uDriveStep fs indexedPaths headerSearchDirectories fuel qn) st).progressLog =
        st.progressLog ++ l.map (fun iq => (iq.1 : Rat) / (qn : Rat)) := by
  intro l
  induction l with
  | nil => intro st; simp
  | cons a as ih =>
    intro st
    simp only [List.foldl_cons, List.map_cons, ih]
    show (uDriveStep fs indexedPaths headerSearchDirectories fuel qn st a).progressLog ++ _ = _
    simp [uDriveStep]

theorem foldl_hDriveStep_progressLog (fs : FileSystem)
    (searchedPaths currentHeaderSearchDirectories : List FilePath) (fuel qn : Nat) :
    ∀ (l : List (Nat × List FilePath)) (st : HDriveState),
      (l.foldl (hDriveStep fs searchedPaths currentHeaderSearchDirectories fuel qn)
          st).progressLog =
        st.progressLog ++ l.map (fun iq => (iq.1 : Rat) / (qn : Rat)) := by
  intro l
  induction l with
  | nil => intro st; simp
  | cons a as ih =>
    intro st
    simp only [List.foldl_cons, List.map_cons, ih]
    show (hDriveStep fs searchedPaths currentHeaderSearchDirectories fuel qn st a).progressLog
        ++ _ = _
    simp [hDriveStep]

theorem enum_map_div {α : Type} (l : List α) (qn : Nat) :
    l.enum.map (fun iq => ((iq.1 : Rat) / (qn : Rat))) =
      (List.range l.length).map (fun i : Nat => (i : Rat) / (qn : Rat)) := by
  have h : (fun iq : Nat × α => ((iq.1 : Rat) / (qn : Rat))) =
      (fun i : Nat => (i : Rat) / (qn : Rat)) ∘ Prod.fst := rfl
  rw [h, ← List.map_map, List.enum_map_fst]

theorem unresolved_progressLog_eq (fs : FileSystem) (fuel : Nat)
    (src indexedPaths headerSearchDirectories : List FilePath) (k : Nat) :
    (getUnresolvedIncludeDirectives fs fuel src indexedPaths headerSearchDirectories
        k).progressLog =
      (List.range (splitToQuantiles src k).length).map
        (fun i : Nat => (i : Rat) / ((splitToQuantiles src k).length : Rat)) ++ [1] := by
  simp only [getUnresolvedIncludeDirectives]
  rw [foldl_uDriveStep_progressLog, enum_map_div]
  simp

theorem header_progressLog_eq (fs : FileSystem) (fuel : Nat)
    (src searchedPaths currentHeaderSearchDirectories : List FilePath) (k : Nat) :
    (getHeaderSearchDirectories fs fuel src searchedPaths currentHeaderSearchDirectories
        k).progressLog =
      ([(0 : Rat)] ++ (List.range (splitToQuantiles src k).length).map
        (fun i : Nat => (i : Rat) / ((splitToQuantiles src k).length : Rat))) ++ [1] := by
  simp only [getHeaderSearchDirectories]
  rw [foldl_hDriveStep_progressLog, enum_map_div]

theorem rangeDiv_bounds (n : Nat) (hn : 0 < n) :
    ∀ x ∈ (List.range n).map (fun i : Nat => (i : Rat) / (n : Rat)), 0 ≤ x ∧ x ≤ 1 := by
  intro x hx
  rcases List.mem_map.mp hx with ⟨i, hi, rfl⟩
  have hiQ : i < n := List.mem_range.mp hi
  have hnpos : (0 : Rat) < (n : Rat) := by exact_mod_cast hn
  constructor
  · exact div_nonneg (by positivity) (le_of_lt hnpos)
  · exact div_le_one_of_le₀ (by exact_mod_cast Nat.le_of_lt hiQ) (le_of_lt hnpos)

theorem rangeDiv_pairwise (n : Nat) (hn : 0 < n) :
    ((List.range n).map (fun i : Nat => (i : Rat) / (n : Rat))).Pairwise (· ≤ ·) := by
  have hnpos : (0 : Rat) < (n : Rat) := by exact_mod_cast hn
  refine List.Pairwise.map _ ?_ (List.pairwise_lt_range n)
  intro a b hab
  exact (div_le_div_iff_of_pos_right hnpos).mpr (by exact_mod_cast Nat.le_of_lt hab)

theorem quantileCount_pos (src : List FilePath) (k : Nat) :
    0 < (splitToQuantiles src k).length := by
  rw [length_splitToQuantiles]
  exact Nat.lt_of_lt_of_le Nat.one_pos (Nat.le_max_left 1 _)

/-- C6: in every call of `getUnresolvedIncludeDirectives` and of
`getHeaderSearchDirectories`, every value passed to the progress callback
lies in `[0, 1]`, the emitted sequence is monotonically non-decreasing, and
the last emitted value is exactly `1`. -/
theorem progress_reporting :
    (∀ (fs : FileSystem) (fuel : Nat) (src indexedPaths headerSearchDirectories : List FilePath)
        (k : Nat),
      (∀ x ∈ (getUnresolvedIncludeDirectives fs fuel src indexedPaths headerSearchDirectories
          k).progressLog, 0 ≤ x ∧ x ≤ 1) ∧
      (getUnresolvedIncludeDirectives fs fuel src indexedPaths headerSearchDirectories
          k).progressLog.Pairwise (· ≤ ·) ∧
      (getUnresolvedIncludeDirectives fs fuel src indexedPaths headerSearchDirectories
          k).progressLog.getLast? = some 1) ∧
    (∀ (fs : FileSystem) (fuel : Nat)
        (src searchedPaths currentHeaderSearchDirectories : List FilePath) (k : Nat),
      (∀ x ∈ (getHeaderSearchDirectories fs fuel src searchedPaths
          currentHeaderSearchDirectories k).progressLog, 0 ≤ x ∧ x ≤ 1) ∧
      (getHeaderSearchDirectories fs fuel src searchedPaths currentHeaderSearchDirectories
          k).progressLog.Pairwise (· ≤ ·) ∧
      (getHeaderSearchDirectories fs fuel src searchedPaths currentHeaderSearchDirectories
          k).progressLog.getLast? = some 1) := by
  constructor
  · intro fs fuel src indexedPaths headerSearchDirectories k
    rw [unresolved_progressLog_eq]
    have hq := quantileCount_pos src k
    have hb := rangeDiv_bounds _ hq
    refine ⟨?_, ?_, List.getLast?_concat _⟩
    · intro x hx
      rcases List.mem_append.mp hx with h | h
      · exact hb x h
      · rcases List.mem_singleton.mp h with rfl
        exact ⟨by norm_num, le_refl 1⟩
    · refine List.pairwise_append.mpr ⟨rangeDiv_pairwise _ hq, List.pairwise_singleton _ _, ?_⟩
      intro a ha b hb'
      rcases List.mem_singleton.mp hb' with rfl
      exact (hb a ha).2
  · intro fs fuel src searchedPaths currentHeaderSearchDirectories k
    rw [header_progressLog_eq]
    have hq := quantileCount_pos src k
    have hb := rangeDiv_bounds _ hq
    refine ⟨?_, ?_, List.getLast?_concat _⟩
    · intro x hx
      rcases List.mem_append.mp hx with h | h
      · rcases List.mem_append.mp h with h0 | h1
        · rcases List.mem_singleton.mp h0 with rfl
          exact ⟨le_refl 0, by norm_num⟩
        · exact hb x h1
      · rcases List.mem_singleton.mp h with rfl
        exact ⟨by norm_num, le_refl 1⟩
    · refine List.pairwise_append.mpr ⟨?_, List.pairwise_singleton _ _, ?_⟩
      · refine List.pairwise_append.mpr
          ⟨List.pairwise_singleton _ _, rangeDiv_pairwise _ hq, ?_⟩
        intro a ha b hb'
        rcases List.mem_singleton.mp ha with rfl
        exact (hb b hb').1
      · intro a ha b hb'
        rcases List.mem_singleton.mp hb' with rfl
        rcases List.mem_append.mp ha with h0 | h1
        · rcases List.mem_singleton.mp h0 with rfl
          norm_num
        · exact (hb a h1).2

/-! ### The comparator is a strict order; C9: sorted deduplicated result -/

theorem charLt_iff {a b : Char} : charLt a b = true ↔ a < b := by
  simp [charLt]

theorem charListLt_trans : ∀ a b c : List Char,
    charListLt a b = true → charListLt b c = true → charListLt a c = true := by
  intro a
  induction a with
  | nil =>
    intro b c hab hbc
    cases b with
    | nil => exact absurd hab (by simp [charListLt])
    | cons b0 bs =>
      cases c with
      | nil => exact absurd hbc (by simp [charListLt])
      | cons c0 cs => simp [charListLt]
  | cons a0 as ih =>
    intro b c hab hbc
    cases b with
    | nil => exact absurd hab (by simp [charListLt])
    | cons b0 bs =>
      cases c with
      | nil => exact absurd hbc (by simp [charListLt])
      | cons c0 cs =>
        simp only [charListLt] at hab hbc ⊢
        by_cases h1 : a0 = b0
        · subst h1
          rw [if_pos rfl] at hab
          by_cases h2 : a0 = c0
          · subst h2
            rw [if_pos rfl] at hbc ⊢
            exact ih bs cs hab hbc
          · rw [if_neg h2] at hbc ⊢
            exact hbc
        · by_cases h2 : b0 = c0
          · subst h2
            rw [if_neg h1] at hab ⊢
            exact hab
          · rw [if_neg h1] at hab
            rw [if_neg h2] at hbc
            have hac : a0 < c0 := lt_trans (charLt_iff.mp hab) (charLt_iff.mp hbc)
            have hne : a0 ≠ c0 := ne_of_lt hac
            rw [if_neg hne]
            exact charLt_iff.mpr hac

theorem charListLt_irrefl : ∀ a : List Char, charListLt a a = false := by
  intro a
  induction a with
  | nil => rfl
  | cons a0 as ih => simp [charListLt, ih]

theorem charListLt_asymm {a b : List Char} (h1 : charListLt a b = true)
    (h2 : charListLt b a = true) : False := by
  have := charListLt_trans a b a h1 h2
  rw [charListLt_irrefl] at this
  exact Bool.false_ne_true this

theorem compsLt_trans : ∀ a b c : List (List Char),
    compsLt a b = true → compsLt b c = true → compsLt a c = true := by
  intro a
  induction a with
  | nil =>
    intro b c hab hbc
    cases b with
    | nil => exact absurd hab (by simp [compsLt])
    | cons b0 bs =>
      cases c with
      | nil => exact absurd hbc (by simp [compsLt])
      | cons c0 cs => simp [compsLt]
  | cons a0 as ih =>
    intro b c hab hbc
    cases b with
    | nil => exact absurd hab (by simp [compsLt])
    | cons b0 bs =>
      cases c with
      | nil => exact absurd hbc (by simp [compsLt])
      | cons c0 cs =>
        simp only [compsLt] at hab hbc ⊢
        by_cases h1 : a0 = b0
        · subst h1
          rw [if_pos rfl] at hab
          by_cases h2 : a0 = c0
          · subst h2
            rw [if_pos rfl] at hbc ⊢
            exact ih bs cs hab hbc
          · rw [if_neg h2] at hbc ⊢
            exact hbc
        · by_cases h2 : b0 = c0
          · subst h2
            rw [if_neg h1] at hab ⊢
            exact hab
          · rw [if_neg h1] at hab
            rw [if_neg h2] at hbc
            have hac : charListLt a0 c0 = true := charListLt_trans a0 b0 c0 hab hbc
            have hne : a0 ≠ c0 := by
              intro e
              subst e
              exact charListLt_asymm hab hbc
            rw [if_neg hne]
            exact hac

theorem compsLt_irrefl : ∀ a : List (List Char), compsLt a a = false := by
  intro a
  induction a with
  | nil => rfl
  | cons a0 as ih => simp [compsLt, ih]

theorem pathLt_trans {p q r : FilePath} (h1 : pathLt p q = true) (h2 : pathLt q r = true) :
    pathLt p r = true := by
  rcases p with ⟨pa, pc⟩
  rcases q with ⟨qa, qc⟩
  rcases r with ⟨ra, rc⟩
  cases pa <;> cases qa <;> cases ra <;>
    simp [pathLt] at h1 h2 ⊢ <;>
    exact compsLt_trans _ _ _ h1 h2

theorem pathLt_irrefl (p : FilePath) : pathLt p p = false := by
  rcases p with ⟨pa, pc⟩
  simp [pathLt, compsLt_irrefl]

theorem directiveLtB_trans {a b c : IncludeDirective} (h1 : directiveLtB a b = true)
    (h2 : directiveLtB b c = true) : directiveLtB a c = true :=
  pathLt_trans h1 h2

theorem directiveLtB_irrefl_of_eq {a b : IncludeDirective}
    (h : a.includedFile = b.includedFile) : directiveLtB a b = false := by
  unfold directiveLtB
  rw [h]
  exact pathLt_irrefl _

theorem mem_directiveSetInsert {x z : IncludeDirective} :
    ∀ l : List IncludeDirective, z ∈ directiveSetInsert x l → z = x ∨ z ∈ l := by
  intro l
  induction l with
  | nil => intro h; simpa [directiveSetInsert] using h
  | cons y ys ih =>
    intro h
    simp only [directiveSetInsert] at h
    by_cases h1 : directiveLtB x y = true
    · rw [if_pos h1] at h
      rcases List.mem_cons.mp h with h' | h'
      · exact Or.inl h'
      · exact Or.inr h'
    · rw [if_neg h1] at h
      by_cases h2 : directiveLtB y x = true
      · rw [if_pos h2] at h
        rcases List.mem_cons.mp h with h' | h'
        · exact Or.inr (h' ▸ List.mem_cons_self y ys)
        · rcases ih h' with h'' | h''
          · exact Or.inl h''
          · exact Or.inr (List.mem_cons_of_mem y h'')
      · rw [if_neg h2] at h
        exact Or.inr h

theorem pairwise_directiveSetInsert (x : IncludeDirective) :
    ∀ l : List IncludeDirective,
      l.Pairwise (fun a b => directiveLtB a b = true) →
      (directiveSetInsert x l).Pairwise (fun a b => directiveLtB a b = true) := by
  intro l
  induction l with
  | nil => intro _; simp [directiveSetInsert]
  | cons y ys ih =>
    intro hp
    rcases List.pairwise_cons.mp hp with ⟨hy, hys⟩
    simp only [directiveSetInsert]
    by_cases h1 : directiveLtB x y = true
    · rw [if_pos h1]
      refine List.pairwise_cons.mpr ⟨?_, hp⟩
      intro z hz
      rcases List.mem_cons.mp hz with rfl | hz'
      · exact h1
      · exact directiveLtB_trans h1 (hy z hz')
    · rw [if_neg h1]
      by_cases h2 : directiveLtB y x = true
      · rw [if_pos h2]
        refine List.pairwise_cons.mpr ⟨?_, ih hys⟩
        intro z hz
        rcases mem_directiveSetInsert _ hz with rfl | hz'
        · exact h2
        · exact hy z hz'
      · rw [if_neg h2]
        exact hp

theorem pairwise_foldl_directiveSetInsert (ds : List IncludeDirective) :
    ∀ s : List IncludeDirective,
      s.Pairwise (fun a b => directiveLtB a b = true) →
      (ds.foldl (fun s d => directiveSetInsert d s) s).Pairwise
        (fun a b => directiveLtB a b = true) := by
  induction ds with
  | nil => intro s hs; simpa
  | cons d ds' ih => intro s hs; exact ih _ (pairwise_directiveSetInsert d s hs)

theorem uDriveStep_resultSet_pairwise (fs : FileSystem)
    (indexedPaths headerSearchDirectories : List FilePath) (fuel qn : Nat)
    (st : UDriveState) (iq : Nat × List FilePath)
    (h : st.resultSet.Pairwise (fun a b => directiveLtB a b = true)) :
    (uDriveStep fs indexedPaths headerSearchDirectories fuel qn st iq).resultSet.Pairwise
      (fun a b => directiveLtB a b = true) := by
  exact pairwise_foldl_directiveSetInsert _ _ h

/-- C9: the returned sequence of `getUnresolvedIncludeDirectives` is strictly
sorted by the included-file comparator (hence ordered by included-file path),
and carries at most one directive per distinct included path, so only one
`(includingFile, lineNumber)` pair survives per included-path spelling. -/
theorem unresolved_result_sorted_dedup (fs : FileSystem) (fuel : Nat)
    (src indexedPaths headerSearchDirectories : List FilePath) (k : Nat) :
    (getUnresolvedIncludeDirectives fs fuel src indexedPaths headerSearchDirectories
        k).directives.Pairwise (fun a b => directiveLtB a b = true) ∧
    ∀ d1 ∈ (getUnresolvedIncludeDirectives fs fuel src indexedPaths headerSearchDirectories
        k).directives,
      ∀ d2 ∈ (getUnresolvedIncludeDirectives fs fuel src indexedPaths headerSearchDirectories
        k).directives,
      d1.includedFile = d2.includedFile → d1 = d2 := by
  have hpair : (getUnresolvedIncludeDirectives fs fuel src indexedPaths headerSearchDirectories
      k).directives.Pairwise (fun a b => directiveLtB a b = true) := by
    simp only [getUnresolvedIncludeDirectives]
    exact foldl_preserve _ _ _
      (fun s iq _ hs => uDriveStep_resultSet_pairwise fs indexedPaths headerSearchDirectories
        fuel _ s iq hs)
      List.Pairwise.nil
  refine ⟨hpair, ?_⟩
  have hS : (getUnresolvedIncludeDirectives fs fuel src indexedPaths headerSearchDirectories
      k).directives.Pairwise
        (fun a b => a.includedFile = b.includedFile → a = b) := by
    refine hpair.imp ?_
    intro a b hab heq
    rw [directiveLtB_irrefl_of_eq heq] at hab
    exact absurd hab Bool.false_ne_true
  have hsymm : Symmetric
      (fun a b : IncludeDirective => a.includedFile = b.includedFile → a = b) := by
    intro a b hab h
    exact (hab h.symm).symm
  intro d1 h1 d2 h2 heq
  by_cases hne : d1 = d2
  · exact hne
  · exact List.Pairwise.forall hsymm hS h1 h2 hne heq

/-! ### Generic lemmas about the breadth-first driver -/

theorem bfsStep_memo_eq {σ : Type} (iK : FilePath → FilePath)
    (pf : List FilePath → σ → FilePath → σ × List FilePath) (b : Bool) (st : LoopState σ) :
    (bfsStep iK pf b st).memo = stepMemo iK st := rfl

theorem bfsStep_frontier_eq {σ : Type} (iK : FilePath → FilePath)
    (pf : List FilePath → σ → FilePath → σ × List FilePath) (b : Bool) (st : LoopState σ) :
    (bfsStep iK pf b st).frontier =
      (stepFold pf (stepMemo iK st) st.frontier (st.acc, [])).2 := rfl

theorem bfsStep_acc_eq {σ : Type} (iK : FilePath → FilePath)
    (pf : List FilePath → σ → FilePath → σ × List FilePath) (b : Bool) (st : LoopState σ) :
    (bfsStep iK pf b st).acc =
      (stepFold pf (stepMemo iK st) st.frontier (st.acc, [])).1 := rfl

theorem bfsStep_log_eq {σ : Type} (iK : FilePath → FilePath)
    (pf : List FilePath → σ → FilePath → σ × List FilePath) (b : Bool) (st : LoopState σ) :
    (bfsStep iK pf b st).log = st.log ++ [(b, st.frontier)] := rfl

theorem mem_stepMemo {σ : Type} (iK : FilePath → FilePath) (st : LoopState σ) (y : FilePath) :
    y ∈ stepMemo iK st ↔ y ∈ st.memo ∨ ∃ p ∈ st.frontier, iK p = y := by
  unfold stepMemo
  have h : st.frontier.foldl (fun m p => insertPath m (iK p)) st.memo =
      (st.frontier.map iK).foldl insertPath st.memo :=
    (List.foldl_map iK insertPath st.frontier st.memo).symm
  rw [h, mem_foldl_insertPath, List.mem_map]

theorem stepMemo_subset {σ : Type} (iK : FilePath → FilePath) (st : LoopState σ)
    {x : FilePath} (hx : x ∈ st.memo) : x ∈ stepMemo iK st :=
  (mem_stepMemo iK st x).mpr (Or.inl hx)

theorem key_mem_stepMemo {σ : Type} (iK : FilePath → FilePath) (st : LoopState σ)
    {p : FilePath} (hp : p ∈ st.frontier) : iK p ∈ stepMemo iK st :=
  (mem_stepMemo iK st _).mpr (Or.inr ⟨p, hp, rfl⟩)

theorem stepFold_snd_mem {σ : Type} (pf : List FilePath → σ → FilePath → σ × List FilePath)
    (newMemo : List FilePath) :
    ∀ (l : List FilePath) (pr : σ × List FilePath) (c : FilePath),
      c ∈ (stepFold pf newMemo l pr).2 →
      c ∈ pr.2 ∨ ∃ f ∈ l, ∃ a, c ∈ (pf newMemo a f).2 := by
  intro l
  induction l with
  | nil => intro pr c hc; exact Or.inl hc
  | cons p ps ih =>
    intro pr c hc
    rcases ih _ c hc with hc' | ⟨f, hf, a, hcand⟩
    · rcases (mem_foldl_insertPath _ _ _).mp hc' with hc'' | hc''
      · exact Or.inl hc''
      · exact Or.inr ⟨p, List.mem_cons_self p ps, pr.1, hc''⟩
    · exact Or.inr ⟨f, List.mem_cons_of_mem p hf, a, hcand⟩

theorem stepFold_nodup {σ : Type} (pf : List FilePath → σ → FilePath → σ × List FilePath)
    (newMemo : List FilePath) :
    ∀ (l : List FilePath) (pr : σ × List FilePath), pr.2.Nodup →
      (stepFold pf newMemo l pr).2.Nodup := by
  intro l
  induction l with
  | nil => intro pr h; exact h
  | cons p ps ih =>
    intro pr h
    exact ih _ (nodup_foldl_insertPath _ _ h)

theorem bfsStep_frontier_mem {σ : Type} {iK : FilePath → FilePath}
    {pf : List FilePath → σ → FilePath → σ × List FilePath} {b : Bool} {st : LoopState σ}
    {c : FilePath} (hc : c ∈ (bfsStep iK pf b st).frontier) :
    ∃ f ∈ st.frontier, ∃ a, c ∈ (pf (stepMemo iK st) a f).2 := by
  rw [bfsStep_frontier_eq] at hc
  rcases stepFold_snd_mem pf _ st.frontier (st.acc, []) c hc with h | h
  · exact absurd h (List.not_mem_nil c)
  · exact h

theorem bfsStep_frontier_nodup {σ : Type} (iK : FilePath → FilePath)
    (pf : List FilePath → σ → FilePath → σ × List FilePath) (b : Bool) (st : LoopState σ) :
    (bfsStep iK pf b st).frontier.Nodup := by
  rw [bfsStep_frontier_eq]
  exact stepFold_nodup pf _ st.frontier (st.acc, []) List.nodup_nil

theorem shardLoop_inv {σ : Type} (iK : FilePath → FilePath)
    (pf : List FilePath → σ → FilePath → σ × List FilePath) {Q : LoopState σ → Prop}
    (hstep : ∀ st : LoopState σ, st.frontier ≠ [] → Q st → Q (bfsStep iK pf false st)) :
    ∀ (fuel : Nat) (st : LoopState σ), Q st → Q (shardLoop iK pf fuel st) := by
  intro fuel
  induction fuel with
  | zero => intro st h; exact h
  | succ n ih =>
    intro st h
    by_cases hf : st.frontier = []
    · simpa [shardLoop, hf] using h
    · simp only [shardLoop, if_neg hf]
      exact ih _ (hstep st hf h)

theorem shardLoop_log_extend {σ : Type} (iK : FilePath → FilePath)
    (pf : List FilePath → σ → FilePath → σ × List FilePath) :
    ∀ (fuel : Nat) (st : LoopState σ), ∃ t, (shardLoop iK pf fuel st).log = st.log ++ t := by
  intro fuel
  induction fuel with
  | zero => intro st; exact ⟨[], by simp [shardLoop]⟩
  | succ n ih =>
    intro st
    by_cases hf : st.frontier = []
    · exact ⟨[], by simp [shardLoop, hf]⟩
    · rcases ih (bfsStep iK pf false st) with ⟨t, ht⟩
      refine ⟨[(false, st.frontier)] ++ t, ?_⟩
      simp only [shardLoop, if_neg hf]
      rw [ht, bfsStep_log_eq, List.append_assoc]

theorem runShard_log_extend {σ : Type} (iK : FilePath → FilePath)
    (pf : List FilePath → σ → FilePath → σ × List FilePath) (fuel : Nat)
    (seeds memo : List FilePath) (acc : σ) (log : List (Bool × List FilePath)) :
    ∃ t, (runShard iK pf fuel seeds memo acc log).log = log ++ t := by
  unfold runShard
  by_cases hs : seeds = []
  · exact ⟨[], by simp [hs]⟩
  · rw [if_neg hs]
    rcases shardLoop_log_extend iK pf fuel (bfsStep iK pf true ⟨seeds, memo, acc, log⟩) with ⟨t, ht⟩
    exact ⟨[(true, seeds)] ++ t, by rw [ht, bfsStep_log_eq, List.append_assoc]⟩

/-! ### Termination of the discovery loops -/

theorem memoDeficit_le (u memo : List FilePath) : memoDeficit u memo ≤ u.length :=
  List.length_filter_le _ _

theorem memoDeficit_lt (u m m' : List FilePath) (p : FilePath)
    (hsub : ∀ x ∈ m, x ∈ m') (hpu : p ∈ u) (hpm : p ∉ m) (hpm' : p ∈ m') :
    memoDeficit u m' < memoDeficit u m := by
  unfold memoDeficit
  have himp : ∀ a, (!(a ∈ m' : Bool)) = true → (!(a ∈ m : Bool)) = true := by
    intro a ha
    simp only [Bool.not_eq_true', decide_eq_false_iff_not] at ha ⊢
    exact fun hm => ha (hsub a hm)
  have hsubl := List.monotone_filter_right u himp
  refine lt_of_le_of_ne hsubl.length_le ?_
  intro heq
  have heql := hsubl.eq_of_length heq
  have hpin : p ∈ u.filter (fun x => !(x ∈ m : Bool)) := by
    rw [List.mem_filter]
    exact ⟨hpu, by simpa using hpm⟩
  rw [← heql, List.mem_filter] at hpin
  rcases hpin with ⟨_, hp'⟩
  simp at hp'
  exact hp' hpm'

/-- The frontier invariant of a discovery walk: after any iteration, every
frontier file is its own memo key, lies in the universe of existing files,
and is not yet in the memo. -/
def bfsInv {σ : Type} (iK : FilePath → FilePath) (u : List FilePath) (st : LoopState σ) :
    Prop :=
  ∀ p ∈ st.frontier, iK p = p ∧ p ∈ u ∧ p ∉ st.memo

theorem bfsStep_bfsInv {σ : Type} {iK : FilePath → FilePath}
    {pf : List FilePath → σ → FilePath → σ × List FilePath} {u : List FilePath}
    (hcand : ∀ (m : List FilePath) (a : σ) (f c : FilePath),
      c ∈ (pf m a f).2 → iK c = c ∧ c ∈ u ∧ c ∉ m)
    (b : Bool) (st : LoopState σ) : bfsInv iK u (bfsStep iK pf b st) := by
  intro c hc
  rcases bfsStep_frontier_mem hc with ⟨f, _, a, hcf⟩
  have h := hcand _ a f c hcf
  exact ⟨h.1, h.2.1, by rw [bfsStep_memo_eq]; exact h.2.2⟩

theorem bfsStep_deficit_lt {σ : Type} (iK : FilePath → FilePath)
    (pf : List FilePath → σ → FilePath → σ × List FilePath) (u : List FilePath)
    (b : Bool) (st : LoopState σ) (hinv : bfsInv iK u st) (hne : st.frontier ≠ []) :
    memoDeficit u (bfsStep iK pf b st).memo < memoDeficit u st.memo := by
  obtain ⟨p, hp⟩ : ∃ p, p ∈ st.frontier := by
    cases h : st.frontier with
    | nil => exact absurd h hne
    | cons q qs => exact ⟨q, h ▸ List.mem_cons_self q qs⟩
  obtain ⟨hkey, hu, hm⟩ := hinv p hp
  rw [bfsStep_memo_eq]
  exact memoDeficit_lt u st.memo (stepMemo iK st) p
    (fun x hx => stepMemo_subset iK st hx) hu hm
    (hkey ▸ key_mem_stepMemo iK st hp)

theorem shardLoop_terminates {σ : Type} {iK : FilePath → FilePath}
    {pf : List FilePath → σ → FilePath → σ × List FilePath} {u : List FilePath}
    (hcand : ∀ (m : List FilePath) (a : σ) (f c : FilePath),
      c ∈ (pf m a f).2 → iK c = c ∧ c ∈ u ∧ c ∉ m) :
    ∀ (fuel : Nat) (st : LoopState σ), bfsInv iK u st →
      memoDeficit u st.memo < fuel → (shardLoop iK pf fuel st).frontier = [] := by
  intro fuel
  induction fuel with
  | zero => intro st _ h; exact absurd h (Nat.not_lt_zero _)
  | succ n ih =>
    intro st hinv hflt
    by_cases hf : st.frontier = []
    · simp [shardLoop, hf]
    · have h1 : bfsInv iK u (bfsStep iK pf false st) := bfsStep_bfsInv hcand false st
      have h2 := bfsStep_deficit_lt iK pf u false st hinv hf
      simp only [shardLoop, if_neg hf]
      exact ih _ h1 (by omega)

theorem runShard_completes {σ : Type} {iK : FilePath → FilePath}
    {pf : List FilePath → σ → FilePath → σ × List FilePath} {u : List FilePath}
    (hcand : ∀ (m : List FilePath) (a : σ) (f c : FilePath),
      c ∈ (pf m a f).2 → iK c = c ∧ c ∈ u ∧ c ∉ m)
    (fuel : Nat) (hfuel : u.length < fuel) (seeds memo : List FilePath) (acc : σ)
    (log : List (Bool × List FilePath)) :
    (runShard iK pf fuel seeds memo acc log).frontier = [] := by
  unfold runShard
  by_cases hs : seeds = []
  · simp [hs]
  · rw [if_neg hs]
    refine shardLoop_terminates hcand fuel _ (bfsStep_bfsInv hcand true _) ?_
    exact lt_of_le_of_lt (memoDeficit_le u _) hfuel

/-! ### Characterization of the per-file bodies -/

theorem unresolvedDirLoop_eq (fs : FileSystem) (indexedPaths headerSearchDirectories memo : List FilePath) :
    ∀ (ds : List IncludeDirective) (st : List IncludeDirective × List FilePath),
      unresolvedDirLoop fs indexedPaths headerSearchDirectories memo ds st =
        (st.1 ++ ds.filter
          (fun d => decide
            (fs.canonical (resolveIncludeDirective fs d headerSearchDirectories) =
              FilePath.emptyPath)),
         st.2 ++ ds.filterMap (fun d =>
           if fs.canonical (resolveIncludeDirective fs d headerSearchDirectories) =
               FilePath.emptyPath then none
           else if fs.canonical (resolveIncludeDirective fs d headerSearchDirectories) ∈ memo then
             none
           else if indexedPaths.any (fun ip =>
               ip.contains (fs.canonical (resolveIncludeDirective fs d headerSearchDirectories)))
               = true then
             some (fs.canonical (resolveIncludeDirective fs d headerSearchDirectories))
           else none)) := by
  intro ds
  induction ds with
  | nil => intro st; simp [unresolvedDirLoop]
  | cons d rest ih =>
    intro st
    by_cases h1 : fs.canonical (resolveIncludeDirective fs d headerSearchDirectories) =
        FilePath.emptyPath
    · simp only [unresolvedDirLoop, ih]
      simp [List.filter_cons, List.filterMap_cons, h1]
    · by_cases h2 : fs.canonical (resolveIncludeDirective fs d headerSearchDirectories) ∈ memo
      · simp only [unresolvedDirLoop, ih]
        simp [List.filter_cons, List.filterMap_cons, h1, h2]
      · by_cases h3 : indexedPaths.any (fun ip =>
            ip.contains (fs.canonical (resolveIncludeDirective fs d headerSearchDirectories)))
            = true
        · rw [List.any_eq_true] at h3
          simp only [unresolvedDirLoop, ih]
          simp [List.filter_cons, List.filterMap_cons, h1, h2, h3]
        · rw [List.any_eq_true] at h3
          simp only [unresolvedDirLoop, ih]
          simp [List.filter_cons, List.filterMap_cons, h1, h2, h3]

theorem unresolved_cand_spec (fs : FileSystem)
    (indexedPaths headerSearchDirectories memo : List FilePath) (acc : List IncludeDirective)
    (f c : FilePath)
    (hc : c ∈ (unresolvedProcessFile fs indexedPaths headerSearchDirectories memo acc f).2) :
    ∃ d ∈ getIncludeDirectives fs f,
      c = fs.canonical (resolveIncludeDirective fs d headerSearchDirectories) ∧
      c ≠ FilePath.emptyPath ∧ c ∉ memo ∧
      indexedPaths.any (fun ip => ip.contains c) = true := by
  unfold unresolvedProcessFile at hc
  rw [unresolvedDirLoop_eq] at hc
  simp only [List.nil_append] at hc
  rcases List.mem_filterMap.mp hc with ⟨d, hd, hsome⟩
  by_cases h1 : fs.canonical (resolveIncludeDirective fs d headerSearchDirectories) =
      FilePath.emptyPath
  · rw [if_pos h1] at hsome
    exact absurd hsome (by simp)
  · rw [if_neg h1] at hsome
    by_cases h2 : fs.canonical (resolveIncludeDirective fs d headerSearchDirectories) ∈ memo
    · rw [if_pos h2] at hsome
      exact absurd hsome (by simp)
    · rw [if_neg h2] at hsome
      by_cases h3 : indexedPaths.any (fun ip =>
          ip.contains (fs.canonical (resolveIncludeDirective fs d headerSearchDirectories)))
          = true
      · rw [if_pos h3] at hsome
        have hcv := Option.some.inj hsome
        subst hcv
        exact ⟨d, hd, rfl, h1, h2, h3⟩
      · rw [if_neg h3] at hsome
        exact absurd hsome (by simp)

theorem searchInDirectories_result (fs : FileSystem) (includedFilePath : FilePath) :
    ∀ dirs : List FilePath,
      searchInDirectories fs includedFilePath dirs = FilePath.emptyPath ∨
      fs.pathExists (searchInDirectories fs includedFilePath dirs) = true := by
  intro dirs
  induction dirs with
  | nil => exact Or.inl rfl
  | cons d ds ih =>
    by_cases h : fs.pathExists (d.concat includedFilePath) = true
    · simp only [searchInDirectories, if_pos h]
      exact Or.inr h
    · simp only [searchInDirectories, if_neg h]
      exact ih

theorem resolveIncludeDirective_result (fs : FileSystem) (d : IncludeDirective)
    (dirs : List FilePath) :
    resolveIncludeDirective fs d dirs = FilePath.emptyPath ∨
    fs.pathExists (resolveIncludeDirective fs d dirs) = true := by
  unfold resolveIncludeDirective
  by_cases h1 : d.includedFile.isAbs = true ∧ fs.pathExists d.includedFile = true
  · rw [if_pos h1]
    exact Or.inr h1.2
  · rw [if_neg h1]
    by_cases h2 : fs.pathExists ((d.includingFile.parentDir).concat d.includedFile) = true
    · simp only [if_pos h2]
      exact Or.inr h2
    · simp only [h2, if_false]
      exact searchInDirectories_result fs d.includedFile dirs

theorem unresolved_hcand (fs : FileSystem) (u indexedPaths headerSearchDirectories : List FilePath)
    (hce : fs.canonical FilePath.emptyPath = FilePath.emptyPath)
    (hA : ∀ p, fs.canonical (fs.toAbsolute (fs.canonical p)) = fs.canonical p)
    (hB : ∀ p, fs.pathExists p = true → fs.canonical p ∈ u) :
    ∀ (m : List FilePath) (a : List IncludeDirective) (f c : FilePath),
      c ∈ (unresolvedProcessFile fs indexedPaths headerSearchDirectories m a f).2 →
      unresolvedInsertKey fs c = c ∧ c ∈ u ∧ c ∉ m := by
  intro m a f c hc
  obtain ⟨d, _, hceq, hne, hm, _⟩ := unresolved_cand_spec fs indexedPaths headerSearchDirectories
    m a f c hc
  rcases resolveIncludeDirective_result fs d headerSearchDirectories with h0 | hex
  · rw [h0, hce] at hceq
    exact absurd hceq hne
  · subst hceq
    exact ⟨hA _, hB _ hex, hm⟩

theorem headerDirLoop_snd (fs : FileSystem)
    (searchedPaths currentHeaderSearchDirectories memo : List FilePath) :
    ∀ (ds : List IncludeDirective) (st : List FilePath × List FilePath),
      (∀ c ∈ st.2, fs.pathExists c = true ∧ c ∉ memo) →
      ∀ c ∈ (headerDirLoop fs searchedPaths currentHeaderSearchDirectories memo ds st).2,
        fs.pathExists c = true ∧ c ∉ memo := by
  intro ds
  induction ds with
  | nil => intro st h; exact h
  | cons d rest ih =>
    intro st h
    simp only [headerDirLoop]
    refine ih _ ?_
    intro c hc
    set af := if resolveIncludeDirective fs d currentHeaderSearchDirectories = FilePath.emptyPath
      then treeLookup fs d.includedFile searchedPaths st.1
      else (st.1, resolveIncludeDirective fs d currentHeaderSearchDirectories) with haf
    by_cases hcond : fs.pathExists af.2 = true ∧ af.2 ∉ memo
    · rw [if_pos hcond] at hc
      rcases List.mem_append.mp hc with h' | h'
      · exact h c h'
      · rcases List.mem_singleton.mp h' with rfl
        exact hcond
    · rw [if_neg hcond] at hc
      exact h c hc

theorem header_hcand (fs : FileSystem)
    (u searchedPaths currentHeaderSearchDirectories : List FilePath)
    (hC : ∀ p, fs.pathExists p = true → fs.toAbsolute p = p)
    (hD : ∀ p, fs.pathExists p = true → p ∈ u) :
    ∀ (m : List FilePath) (a : List FilePath) (f c : FilePath),
      c ∈ (headerProcessFile fs searchedPaths currentHeaderSearchDirectories m a f).2 →
      headerInsertKey fs c = c ∧ c ∈ u ∧ c ∉ m := by
  intro m a f c hc
  have h := headerDirLoop_snd fs searchedPaths currentHeaderSearchDirectories m
    (getIncludeDirectives fs f) (a, [])
    (by intro x hx; exact absurd hx (List.not_mem_nil x)) c hc
  exact ⟨hC c h.1, hD c h.1, h.2⟩

/-! ### C2: termination and at-most-once expansion -/

theorem getUnresolved_completes (fs : FileSystem) (u : List FilePath)
    (hce : fs.canonical FilePath.emptyPath = FilePath.emptyPath)
    (hA : ∀ p, fs.canonical (fs.toAbsolute (fs.canonical p)) = fs.canonical p)
    (hB : ∀ p, fs.pathExists p = true → fs.canonical p ∈ u)
    (fuel : Nat) (hfuel : u.length < fuel)
    (src indexedPaths headerSearchDirectories : List FilePath) (k : Nat) :
    (getUnresolvedIncludeDirectives fs fuel src indexedPaths headerSearchDirectories
      k).completed = true := by
  have hcand := unresolved_hcand fs u indexedPaths headerSearchDirectories hce hA hB
  simp only [getUnresolvedIncludeDirectives]
  refine @foldl_preserve _ _ (fun ds : UDriveState => ds.completed = true) _ _ _ ?_ rfl
  intro s iq _ hs
  have hfr := runShard_completes hcand fuel hfuel (toPathSet iq.2) s.memo
    ([] : List IncludeDirective) s.traceLog
  simp [uDriveStep, hs, hfr]

theorem getHeader_completes (fs : FileSystem) (u : List FilePath)
    (hC : ∀ p, fs.pathExists p = true → fs.toAbsolute p = p)
    (hD : ∀ p, fs.pathExists p = true → p ∈ u)
    (fuel : Nat) (hfuel : u.length < fuel)
    (src searchedPaths currentHeaderSearchDirectories : List FilePath) (k : Nat) :
    (getHeaderSearchDirectories fs fuel src searchedPaths currentHeaderSearchDirectories
      k).completed = true := by
  have hcand := header_hcand fs u searchedPaths currentHeaderSearchDirectories hC hD
  simp only [getHeaderSearchDirectories]
  refine @foldl_preserve _ _ (fun ds : HDriveState => ds.completed = true) _ _ _ ?_ rfl
  intro s iq _ hs
  have hfr := runShard_completes hcand fuel hfuel (toPathSet iq.2) s.memo s.dirs s.traceLog
  simp [hDriveStep, hs, hfr]

theorem expansionFiles_append_true (log : List (Bool × List FilePath)) (l : List FilePath) :
    expansionFiles (log ++ [(true, l)]) = expansionFiles log := by
  simp [expansionFiles, List.filter_append]

theorem expansionFiles_append_false (log : List (Bool × List FilePath)) (l : List FilePath) :
    expansionFiles (log ++ [(false, l)]) = expansionFiles log ++ l := by
  simp [expansionFiles, List.filter_append]

/-- The expansion invariant: the files extracted through include-expansion
are pairwise distinct and all recorded in the memo. -/
def nodupInv {σ : Type} (st : LoopState σ) : Prop :=
  (expansionFiles st.log).Nodup ∧ ∀ p ∈ expansionFiles st.log, p ∈ st.memo

theorem nodupInv_step_true {σ : Type} (iK : FilePath → FilePath)
    (pf : List FilePath → σ → FilePath → σ × List FilePath) (st : LoopState σ)
    (h : nodupInv st) : nodupInv (bfsStep iK pf true st) := by
  constructor
  · rw [bfsStep_log_eq, expansionFiles_append_true]
    exact h.1
  · intro p hp
    rw [bfsStep_log_eq, expansionFiles_append_true] at hp
    rw [bfsStep_memo_eq]
    exact stepMemo_subset iK st (h.2 p hp)

theorem nodupInv_step_false {σ : Type} (iK : FilePath → FilePath)
    (pf : List FilePath → σ → FilePath → σ × List FilePath) (u : List FilePath)
    (st : LoopState σ) (h : nodupInv st) (hfr : st.frontier.Nodup)
    (hinv : bfsInv iK u st) : nodupInv (bfsStep iK pf false st) := by
  constructor
  · rw [bfsStep_log_eq, expansionFiles_append_false]
    refine List.Nodup.append h.1 hfr ?_
    intro x hx hx'
    exact (hinv x hx').2.2 (h.2 x hx)
  · intro p hp
    rw [bfsStep_log_eq, expansionFiles_append_false] at hp
    rw [bfsStep_memo_eq]
    rcases List.mem_append.mp hp with h' | h'
    · exact stepMemo_subset iK st (h.2 p h')
    · exact (hinv p h').1 ▸ key_mem_stepMemo iK st h'

/-- The full loop invariant combining `nodupInv` with the frontier facts. -/
def nodupFull {σ : Type} (iK : FilePath → FilePath) (u : List FilePath)
    (st : LoopState σ) : Prop :=
  nodupInv st ∧ st.frontier.Nodup ∧ bfsInv iK u st

theorem nodupFull_runShard {σ : Type} {iK : FilePath → FilePath}
    {pf : List FilePath → σ → FilePath → σ × List FilePath} {u : List FilePath}
    (hcand : ∀ (m : List FilePath) (a : σ) (f c : FilePath),
      c ∈ (pf m a f).2 → iK c = c ∧ c ∈ u ∧ c ∉ m)
    (fuel : Nat) (seeds memo : List FilePath) (acc : σ)
    (log : List (Bool × List FilePath))
    (h1 : (expansionFiles log).Nodup) (h2 : ∀ p ∈ expansionFiles log, p ∈ memo) :
    nodupFull iK u (runShard iK pf fuel seeds memo acc log) := by
  unfold runShard
  by_cases hs : seeds = []
  · rw [if_pos hs]
    exact ⟨⟨h1, h2⟩, List.nodup_nil, fun p hp => absurd hp (List.not_mem_nil p)⟩
  · rw [if_neg hs]
    have hst1 : nodupFull iK u (bfsStep iK pf true ⟨seeds, memo, acc, log⟩) :=
      ⟨nodupInv_step_true iK pf _ ⟨h1, h2⟩, bfsStep_frontier_nodup iK pf true _,
        bfsStep_bfsInv hcand true _⟩
    refine shardLoop_inv iK pf ?_ fuel _ hst1
    intro st _ h
    exact ⟨nodupInv_step_false iK pf u st h.1 h.2.1 h.2.2,
      bfsStep_frontier_nodup iK pf false st, bfsStep_bfsInv hcand false st⟩

theorem getUnresolved_expansion_nodup (fs : FileSystem) (u : List FilePath)
    (hce : fs.canonical FilePath.emptyPath = FilePath.emptyPath)
    (hA : ∀ p, fs.canonical (fs.toAbsolute (fs.canonical p)) = fs.canonical p)
    (hB : ∀ p, fs.pathExists p = true → fs.canonical p ∈ u)
    (fuel : Nat) (src indexedPaths headerSearchDirectories : List FilePath) (k : Nat) :
    (expansionFiles (getUnresolvedIncludeDirectives fs fuel src indexedPaths
      headerSearchDirectories k).traceLog).Nodup := by
  have hcand := unresolved_hcand fs u indexedPaths headerSearchDirectories hce hA hB
  simp only [getUnresolvedIncludeDirectives]
  have hstep : ∀ (s : UDriveState) (iq : Nat × List FilePath),
      iq ∈ (splitToQuantiles src k).enum →
      ((expansionFiles s.traceLog).Nodup ∧ ∀ p ∈ expansionFiles s.traceLog, p ∈ s.memo) →
      ((expansionFiles (uDriveStep fs indexedPaths headerSearchDirectories fuel
          (splitToQuantiles src k).length s iq).traceLog).Nodup ∧
        ∀ p ∈ expansionFiles (uDriveStep fs indexedPaths headerSearchDirectories fuel
          (splitToQuantiles src k).length s iq).traceLog,
          p ∈ (uDriveStep fs indexedPaths headerSearchDirectories fuel
            (splitToQuantiles src k).length s iq).memo) := by
    intro s iq _ hs
    have hres := nodupFull_runShard hcand fuel (toPathSet iq.2) s.memo
      ([] : List IncludeDirective) s.traceLog hs.1 hs.2
    exact ⟨hres.1.1, hres.1.2⟩
  exact (@foldl_preserve _ _
    (fun ds : UDriveState => (expansionFiles ds.traceLog).Nodup ∧
      ∀ p ∈ expansionFiles ds.traceLog, p ∈ ds.memo)
    (uDriveStep fs indexedPaths headerSearchDirectories fuel (splitToQuantiles src k).length)
    (splitToQuantiles src k).enum ⟨[], [], [], [], true⟩ hstep
    ⟨by simp [expansionFiles], by simp [expansionFiles]⟩).1

theorem getHeader_expansion_nodup (fs : FileSystem) (u : List FilePath)
    (hC : ∀ p, fs.pathExists p = true → fs.toAbsolute p = p)
    (hD : ∀ p, fs.pathExists p = true → p ∈ u)
    (fuel : Nat) (src searchedPaths currentHeaderSearchDirectories : List FilePath) (k : Nat) :
    (expansionFiles (getHeaderSearchDirectories fs fuel src searchedPaths
      currentHeaderSearchDirectories k).traceLog).Nodup := by
  have hcand := header_hcand fs u searchedPaths currentHeaderSearchDirectories hC hD
  simp only [getHeaderSearchDirectories]
  have hstep : ∀ (s : HDriveState) (iq : Nat × List FilePath),
      iq ∈ (splitToQuantiles src k).enum →
      ((expansionFiles s.traceLog).Nodup ∧ ∀ p ∈ expansionFiles s.traceLog, p ∈ s.memo) →
      ((expansionFiles (hDriveStep fs searchedPaths currentHeaderSearchDirectories fuel
          (splitToQuantiles src k).length s iq).traceLog).Nodup ∧
        ∀ p ∈ expansionFiles (hDriveStep fs searchedPaths currentHeaderSearchDirectories fuel
          (splitToQuantiles src k).length s iq).traceLog,
          p ∈ (hDriveStep fs searchedPaths currentHeaderSearchDirectories fuel
            (splitToQuantiles src k).length s iq).memo) := by
    intro s iq _ hs
    have hres := nodupFull_runShard hcand fuel (toPathSet iq.2) s.memo s.dirs s.traceLog hs.1 hs.2
    exact ⟨hres.1.1, hres.1.2⟩
  exact (@foldl_preserve _ _
    (fun ds : HDriveState => (expansionFiles ds.traceLog).Nodup ∧
      ∀ p ∈ expansionFiles ds.traceLog, p ∈ ds.memo)
    (hDriveStep fs searchedPaths currentHeaderSearchDirectories fuel
      (splitToQuantiles src k).length)
    (splitToQuantiles src k).enum ⟨[], [], [], [(0 : Rat)], true⟩ hstep
    ⟨by simp [expansionFiles], by simp [expansionFiles]⟩).1

/-- C2 counterexample: for the source set `{/a, /b}` (where `/a` includes
`/b`) split into two shards, the call terminates but the directives of `/b`
are extracted twice — once when `/b` is reached from shard 0 and once more
when it is the seed of shard 1 — refuting "each file's directives are
extracted exactly once". -/
theorem extraction_twice_counterexample :
    cxRun.completed = true ∧ (logFiles cxRun.traceLog).count exB = 2 :=
  ⟨by decide, by decide⟩

/-- C2 (amended): for a filesystem whose existing files lie in the finite
universe `u` (with idempotent canonicalization and absolute existing paths),
both discovery walks exhaust every frontier within fuel `> |u|` — they
terminate — and every file enters the processed-file memo at most once; a
file in the memo is never expanded again, so the files extracted through
include-expansion are pairwise distinct across the whole call.  However a
file appearing as the seed of a shard has its directives extracted there
regardless of the memo, so a file reached from an earlier shard and seeded
in a later one is extracted twice (see the counterexample). -/
theorem discovery_terminates_extraction_once (fs : FileSystem) (u : List FilePath)
    (hce : fs.canonical FilePath.emptyPath = FilePath.emptyPath)
    (hA : ∀ p, fs.canonical (fs.toAbsolute (fs.canonical p)) = fs.canonical p)
    (hB : ∀ p, fs.pathExists p = true → fs.canonical p ∈ u)
    (hC : ∀ p, fs.pathExists p = true → fs.toAbsolute p = p)
    (hD : ∀ p, fs.pathExists p = true → p ∈ u)
    (fuel : Nat) (hfuel : u.length < fuel) :
    ∀ (src indexedPaths headerSearchDirectories searchedPaths
        currentHeaderSearchDirectories : List FilePath) (k : Nat),
      (getUnresolvedIncludeDirectives fs fuel src indexedPaths headerSearchDirectories
        k).completed = true ∧
      (getHeaderSearchDirectories fs fuel src searchedPaths currentHeaderSearchDirectories
        k).completed = true ∧
      (expansionFiles (getUnresolvedIncludeDirectives fs fuel src indexedPaths
        headerSearchDirectories k).traceLog).Nodup ∧
      (expansionFiles (getHeaderSearchDirectories fs fuel src searchedPaths
        currentHeaderSearchDirectories k).traceLog).Nodup := by
  intro src indexedPaths headerSearchDirectories searchedPaths currentHeaderSearchDirectories k
  exact ⟨getUnresolved_completes fs u hce hA hB fuel hfuel src indexedPaths
      headerSearchDirectories k,
    getHeader_completes fs u hC hD fuel hfuel src searchedPaths
      currentHeaderSearchDirectories k,
    getUnresolved_expansion_nodup fs u hce hA hB fuel src indexedPaths
      headerSearchDirectories k,
    getHeader_expansion_nodup fs u hC hD fuel src searchedPaths
      currentHeaderSearchDirectories k⟩

theorem discovery_terminates_extraction_once_witness :
    fsCX.canonical FilePath.emptyPath = FilePath.emptyPath ∧
    ([exA, exB] : List FilePath).length < 3 ∧
    ((getUnresolvedIncludeDirectives fsCX 3 [exA, exB] [⟨true, []⟩] [] 2).completed = true ∧
      (getHeaderSearchDirectories fsCX 3 [exA, exB] [] [] 2).completed = true ∧
      (expansionFiles (getUnresolvedIncludeDirectives fsCX 3 [exA, exB] [⟨true, []⟩] []
        2).traceLog).Nodup ∧
      (expansionFiles (getHeaderSearchDirectories fsCX 3 [exA, exB] [] []
        2).traceLog).Nodup) :=
  ⟨rfl, by decide,
    discovery_terminates_extraction_once fsCX [exA, exB] rfl (fun p => rfl)
      (fun p hp => by
        have := of_decide_eq_true hp
        rcases this with h | h <;> simp [FileSystem.canonical, fsCX, h])
      (fun p hp => rfl)
      (fun p hp => by
        have := of_decide_eq_true hp
        rcases this with h | h <;> simp [h])
      3 (by decide) [exA, exB] [⟨true, []⟩] [] [] [] 2⟩

/-! ### C3: the shared memo prevents re-expansion across shards -/

/-- The no-reprocessing relation on log entries: no file of a later
include-expansion frontier is the memo key of an earlier processed file. -/
def reprocessR (iK : FilePath → FilePath) :
    (Bool × List FilePath) → (Bool × List FilePath) → Prop :=
  fun e e' => e'.1 = false → ∀ p ∈ e'.2, p ∉ e.2.map iK

/-- The log invariant for no-reprocessing: the log is pairwise
`reprocessR`-related and every logged file's memo key is in the memo. -/
def reprocessInv {σ : Type} (iK : FilePath → FilePath) (st : LoopState σ) : Prop :=
  st.log.Pairwise (reprocessR iK) ∧ ∀ e ∈ st.log, ∀ p ∈ e.2, iK p ∈ st.memo

theorem unresolved_hcand_mem (fs : FileSystem)
    (indexedPaths headerSearchDirectories : List FilePath) :
    ∀ (m : List FilePath) (a : List IncludeDirective) (f c : FilePath),
      c ∈ (unresolvedProcessFile fs indexedPaths headerSearchDirectories m a f).2 → c ∉ m := by
  intro m a f c hc
  obtain ⟨_, _, _, _, hm, _⟩ := unresolved_cand_spec fs indexedPaths headerSearchDirectories
    m a f c hc
  exact hm

theorem reprocess_step {σ : Type} (iK : FilePath → FilePath)
    (pf : List FilePath → σ → FilePath → σ × List FilePath)
    (hcand : ∀ (m : List FilePath) (a : σ) (f c : FilePath), c ∈ (pf m a f).2 → c ∉ m)
    (b : Bool) (st : LoopState σ) (h : reprocessInv iK st)
    (hfr : b = false → ∀ p ∈ st.frontier, p ∉ st.memo) :
    reprocessInv iK (bfsStep iK pf b st) ∧
      ∀ p ∈ (bfsStep iK pf b st).frontier, p ∉ (bfsStep iK pf b st).memo := by
  refine ⟨⟨?_, ?_⟩, ?_⟩
  · rw [bfsStep_log_eq]
    refine List.pairwise_append.mpr ⟨h.1, List.pairwise_singleton _ _, ?_⟩
    intro e he e' he'
    rcases List.mem_singleton.mp he' with rfl
    intro hfalse p hp hmap
    rcases List.mem_map.mp hmap with ⟨q, hq, hiK⟩
    have hkey : iK q ∈ st.memo := h.2 e he q hq
    exact (hfr hfalse p hp) (hiK ▸ hkey)
  · intro e he p hp
    rw [bfsStep_log_eq] at he
    rw [bfsStep_memo_eq]
    rcases List.mem_append.mp he with h' | h'
    · exact stepMemo_subset iK st (h.2 e h' p hp)
    · rcases List.mem_singleton.mp h' with rfl
      exact key_mem_stepMemo iK st hp
  · intro c hc
    rcases bfsStep_frontier_mem hc with ⟨f, _, a, hcf⟩
    rw [bfsStep_memo_eq]
    exact hcand _ a f c hcf

theorem reprocess_runShard {σ : Type} (iK : FilePath → FilePath)
    (pf : List FilePath → σ → FilePath → σ × List FilePath)
    (hcand : ∀ (m : List FilePath) (a : σ) (f c : FilePath), c ∈ (pf m a f).2 → c ∉ m)
    (fuel : Nat) (seeds memo : List FilePath) (acc : σ)
    (log : List (Bool × List FilePath))
    (h1 : log.Pairwise (reprocessR iK)) (h2 : ∀ e ∈ log, ∀ p ∈ e.2, iK p ∈ memo) :
    reprocessInv iK (runShard iK pf fuel seeds memo acc log) := by
  unfold runShard
  by_cases hs : seeds = []
  · rw [if_pos hs]
    exact ⟨h1, h2⟩
  · rw [if_neg hs]
    have hst1 := reprocess_step iK pf hcand true ⟨seeds, memo, acc, log⟩ ⟨h1, h2⟩
      (fun hfalse => absurd hfalse (by decide))
    have hloop := @shardLoop_inv σ iK pf
      (fun st => reprocessInv iK st ∧ ∀ p ∈ st.frontier, p ∉ st.memo)
      (fun st _ hq => reprocess_step iK pf hcand false st hq.1 (fun _ => hq.2))
      fuel _ hst1
    exact hloop.1

/-- C3 counterexample: in the two-shard run over `{/a, /b}` the file `/b` is
reached and processed from shard 0 (the `(false, [/b])` log entry) and is
nevertheless processed again when it appears as the seed of shard 1 (the
final `(true, [/b])` entry), refuting "never reprocessed when it appears in
a later shard". -/
theorem reprocessed_seed_counterexample :
    cxRun.traceLog = [(true, [exA]), (false, [exB]), (true, [exB])] := by decide

/-- C3 (amended): within one call of `getUnresolvedIncludeDirectives` the
`processedFilePaths` memo is shared across all shards and never reset, so
the memo key of a file processed at any earlier point of the call — in an
earlier shard or an earlier iteration — never reappears in a later
include-expansion frontier: a file already processed is never re-expanded
when it is *reached* (resolved) from a later shard.  A file appearing as a
later shard's *seed* is extracted nevertheless (see the counterexample). -/
theorem getUnresolved_no_reexpansion (fs : FileSystem) (fuel : Nat)
    (src indexedPaths headerSearchDirectories : List FilePath) (k : Nat) :
    (getUnresolvedIncludeDirectives fs fuel src indexedPaths headerSearchDirectories
      k).traceLog.Pairwise
      (fun e e' => e'.1 = false → ∀ p ∈ e'.2, p ∉ e.2.map (unresolvedInsertKey fs)) := by
  have hcand := unresolved_hcand_mem fs indexedPaths headerSearchDirectories
  simp only [getUnresolvedIncludeDirectives]
  have hstep : ∀ (s : UDriveState) (iq : Nat × List FilePath),
      iq ∈ (splitToQuantiles src k).enum →
      (s.traceLog.Pairwise (reprocessR (unresolvedInsertKey fs)) ∧
        ∀ e ∈ s.traceLog, ∀ p ∈ e.2, unresolvedInsertKey fs p ∈ s.memo) →
      ((uDriveStep fs indexedPaths headerSearchDirectories fuel
          (splitToQuantiles src k).length s iq).traceLog.Pairwise
          (reprocessR (unresolvedInsertKey fs)) ∧
        ∀ e ∈ (uDriveStep fs indexedPaths headerSearchDirectories fuel
            (splitToQuantiles src k).length s iq).traceLog, ∀ p ∈ e.2,
          unresolvedInsertKey fs p ∈ (uDriveStep fs indexedPaths headerSearchDirectories fuel
            (splitToQuantiles src k).length s iq).memo) := by
    intro s iq _ hs
    exact reprocess_runShard (unresolvedInsertKey fs) _ hcand fuel (toPathSet iq.2) s.memo
      ([] : List IncludeDirective) s.traceLog hs.1 hs.2
  exact (@foldl_preserve _ _
    (fun ds : UDriveState => ds.traceLog.Pairwise (reprocessR (unresolvedInsertKey fs)) ∧
      ∀ e ∈ ds.traceLog, ∀ p ∈ e.2, unresolvedInsertKey fs p ∈ ds.memo)
    (uDriveStep fs indexedPaths headerSearchDirectories fuel (splitToQuantiles src k).length)
    (splitToQuantiles src k).enum ⟨[], [], [], [], true⟩ hstep
    ⟨List.Pairwise.nil, by simp⟩).1

/-! ### C4: boundary containment -/

theorem gid_includingFile (fs : FileSystem) (f : FilePath) :
    ∀ d ∈ getIncludeDirectives fs f, d.includingFile = f := by
  intro d hd
  unfold getIncludeDirectives at hd
  by_cases h : fs.pathExists f = true
  · rw [if_pos h] at hd
    unfold getIncludeDirectivesFromLines at hd
    rw [getIncludeDirectivesFromLines_foldl_aux] at hd
    simp only [List.nil_append] at hd
    rcases List.mem_filterMap.mp hd with ⟨il, _, hsome⟩
    cases hp : parseIncludeLine il.2 with
    | none => rw [hp] at hsome; exact absurd hsome (by simp)
    | some cb =>
      rw [hp] at hsome
      simp only [Option.map_some'] at hsome
      rw [← Option.some.inj hsome]
  · rw [if_neg (by simpa using h)] at hd
    exact absurd hd (List.not_mem_nil d)

theorem logFiles_append (l1 l2 : List (Bool × List FilePath)) :
    logFiles (l1 ++ l2) = logFiles l1 ++ logFiles l2 := by
  simp [logFiles]

theorem mem_foldl_directiveSetInsert :
    ∀ (ds : List IncludeDirective) (s : List IncludeDirective) (z : IncludeDirective),
      z ∈ ds.foldl (fun s d => directiveSetInsert d s) s → z ∈ s ∨ z ∈ ds := by
  intro ds
  induction ds with
  | nil => intro s z h; exact Or.inl h
  | cons d rest ih =>
    intro s z h
    rcases ih _ z h with h' | h'
    · rcases mem_directiveSetInsert _ h' with rfl | h''
      · exact Or.inr (List.mem_cons_self _ _)
      · exact Or.inl h''
    · exact Or.inr (List.mem_cons_of_mem d h')

theorem quantile_subset (src : List FilePath) (k : Nat) :
    ∀ l ∈ splitToQuantiles src k, ∀ x ∈ l, x ∈ src := by
  intro l hl x hx
  have hflat : x ∈ (splitToQuantiles src k).flatten := List.mem_flatten.mpr ⟨l, hl, hx⟩
  exact ((splitToQuantiles_flatten_perm src k).mem_iff).mp hflat

theorem stepFold_fst_mem_unresolved (fs : FileSystem)
    (indexedPaths headerSearchDirectories : List FilePath) (M : List FilePath) :
    ∀ (l : List FilePath) (pr : List IncludeDirective × List FilePath) (d : IncludeDirective),
      d ∈ (stepFold (unresolvedProcessFile fs indexedPaths headerSearchDirectories)
        M l pr).1 →
      d ∈ pr.1 ∨ ∃ f ∈ l, d ∈ getIncludeDirectives fs f ∧
        fs.canonical (resolveIncludeDirective fs d headerSearchDirectories) =
          FilePath.emptyPath := by
  intro l
  induction l with
  | nil => intro pr d h; exact Or.inl h
  | cons p ps ih =>
    intro pr d h
    rcases ih _ d h with h' | ⟨f, hf, hd, hfail⟩
    · have h1 : (unresolvedProcessFile fs indexedPaths headerSearchDirectories M pr.1 p).1 =
          pr.1 ++ (getIncludeDirectives fs p).filter
            (fun d => decide (fs.canonical (resolveIncludeDirective fs d
              headerSearchDirectories) = FilePath.emptyPath)) := by
        unfold unresolvedProcessFile
        rw [unresolvedDirLoop_eq]
      rw [h1] at h'
      rcases List.mem_append.mp h' with h'' | h''
      · exact Or.inl h''
      · rcases List.mem_filter.mp h'' with ⟨hmem, hdec⟩
        exact Or.inr ⟨p, List.mem_cons_self p ps, hmem, of_decide_eq_true hdec⟩
    · exact Or.inr ⟨f, List.mem_cons_of_mem p hf, hd, hfail⟩

/-- The run invariant behind the boundary-containment claim: accumulated
directives failed resolution and come from extracted files; seed frontiers
are source files; expansion frontiers lie inside the indexed boundary. -/
def c4Inv (fs : FileSystem) (indexedPaths headerSearchDirectories src : List FilePath)
    (st : LoopState (List IncludeDirective)) : Prop :=
  (∀ d ∈ st.acc, d.includingFile ∈ logFiles st.log ∧
    fs.canonical (resolveIncludeDirective fs d headerSearchDirectories) =
      FilePath.emptyPath) ∧
  (∀ e ∈ st.log, ∀ p ∈ e.2, (e.1 = true → p ∈ src) ∧
    (e.1 = false → indexedPaths.any (fun ip => ip.contains p) = true)) ∧
  (∀ p ∈ st.frontier, indexedPaths.any (fun ip => ip.contains p) = true)

theorem c4_step (fs : FileSystem) (indexedPaths headerSearchDirectories src : List FilePath)
    (b : Bool) (st : LoopState (List IncludeDirective))
    (hacc : ∀ d ∈ st.acc, d.includingFile ∈ logFiles st.log ∧
      fs.canonical (resolveIncludeDirective fs d headerSearchDirectories) =
        FilePath.emptyPath)
    (hlog : ∀ e ∈ st.log, ∀ p ∈ e.2, (e.1 = true → p ∈ src) ∧
      (e.1 = false → indexedPaths.any (fun ip => ip.contains p) = true))
    (hfr : b = true → ∀ p ∈ st.frontier, p ∈ src)
    (hfr' : b = false → ∀ p ∈ st.frontier,
      indexedPaths.any (fun ip => ip.contains p) = true) :
    c4Inv fs indexedPaths headerSearchDirectories src
      (bfsStep (unresolvedInsertKey fs)
        (unresolvedProcessFile fs indexedPaths headerSearchDirectories) b st) := by
  refine ⟨?_, ?_, ?_⟩
  · intro d hd
    rw [bfsStep_acc_eq] at hd
    rw [bfsStep_log_eq, logFiles_append]
    rcases stepFold_fst_mem_unresolved fs indexedPaths headerSearchDirectories _
      st.frontier (st.acc, []) d hd with h' | ⟨f, hf, hdd, hfail⟩
    · rcases hacc d h' with ⟨hmem, hfail⟩
      exact ⟨List.mem_append.mpr (Or.inl hmem), hfail⟩
    · refine ⟨List.mem_append.mpr (Or.inr ?_), hfail⟩
      rw [gid_includingFile fs f d hdd]
      simp [logFiles, hf]
  · intro e he p hp
    rw [bfsStep_log_eq] at he
    rcases List.mem_append.mp he with h' | h'
    · exact hlog e h' p hp
    · rcases List.mem_singleton.mp h' with rfl
      exact ⟨fun ht => hfr ht p hp, fun hf => hfr' hf p hp⟩
  · intro p hp
    rcases bfsStep_frontier_mem hp with ⟨f, _, a, hcf⟩
    obtain ⟨_, _, _, _, _, hany⟩ := unresolved_cand_spec fs indexedPaths
      headerSearchDirectories _ a f p hcf
    exact hany

theorem c4_runShard (fs : FileSystem)
    (indexedPaths headerSearchDirectories src : List FilePath) (fuel : Nat)
    (seeds memo : List FilePath) (log : List (Bool × List FilePath))
    (hlog : ∀ e ∈ log, ∀ p ∈ e.2, (e.1 = true → p ∈ src) ∧
      (e.1 = false → indexedPaths.any (fun ip => ip.contains p) = true))
    (hseeds : ∀ p ∈ seeds, p ∈ src) :
    c4Inv fs indexedPaths headerSearchDirectories src
      (runShard (unresolvedInsertKey fs)
        (unresolvedProcessFile fs indexedPaths headerSearchDirectories)
        fuel seeds memo ([] : List IncludeDirective) log) := by
  unfold runShard
  by_cases hs : seeds = []
  · rw [if_pos hs]
    exact ⟨fun d hd => absurd hd (List.not_mem_nil d), hlog,
      fun p hp => absurd hp (List.not_mem_nil p)⟩
  · rw [if_neg hs]
    have hst1 := c4_step fs indexedPaths headerSearchDirectories src true
      ⟨seeds, memo, [], log⟩ (fun d hd => absurd hd (List.not_mem_nil d)) hlog
      (fun _ => hseeds) (fun hfalse => absurd hfalse (by decide))
    refine @shardLoop_inv _ (unresolvedInsertKey fs)
      (unresolvedProcessFile fs indexedPaths headerSearchDirectories)
      (c4Inv fs indexedPaths headerSearchDirectories src) ?_ fuel _ hst1
    intro st _ hq
    exact c4_step fs indexedPaths headerSearchDirectories src false st hq.1 hq.2.1
      (fun htrue => absurd htrue (by decide)) (fun _ => hq.2.2)

theorem c4_drive (fs : FileSystem)
    (indexedPaths headerSearchDirectories src : List FilePath) (fuel : Nat) (k : Nat) :
    (∀ d ∈ (getUnresolvedIncludeDirectives fs fuel src indexedPaths headerSearchDirectories
        k).directives,
      d.includingFile ∈ logFiles (getUnresolvedIncludeDirectives fs fuel src indexedPaths
        headerSearchDirectories k).traceLog ∧
      fs.canonical (resolveIncludeDirective fs d headerSearchDirectories) =
        FilePath.emptyPath) ∧
    (∀ e ∈ (getUnresolvedIncludeDirectives fs fuel src indexedPaths headerSearchDirectories
        k).traceLog, ∀ p ∈ e.2, (e.1 = true → p ∈ src) ∧
      (e.1 = false → indexedPaths.any (fun ip => ip.contains p) = true)) := by
  simp only [getUnresolvedIncludeDirectives]
  have hstep : ∀ (s : UDriveState) (iq : Nat × List FilePath),
      iq ∈ (splitToQuantiles src k).enum →
      ((∀ d ∈ s.resultSet, d.includingFile ∈ logFiles s.traceLog ∧
          fs.canonical (resolveIncludeDirective fs d headerSearchDirectories) =
            FilePath.emptyPath) ∧
        ∀ e ∈ s.traceLog, ∀ p ∈ e.2, (e.1 = true → p ∈ src) ∧
          (e.1 = false → indexedPaths.any (fun ip => ip.contains p) = true)) →
      ((∀ d ∈ (uDriveStep fs indexedPaths headerSearchDirectories fuel
            (splitToQuantiles src k).length s iq).resultSet,
          d.includingFile ∈ logFiles (uDriveStep fs indexedPaths headerSearchDirectories fuel
            (splitToQuantiles src k).length s iq).traceLog ∧
          fs.canonical (resolveIncludeDirective fs d headerSearchDirectories) =
            FilePath.emptyPath) ∧
        ∀ e ∈ (uDriveStep fs indexedPaths headerSearchDirectories fuel
            (splitToQuantiles src k).length s iq).traceLog, ∀ p ∈ e.2,
          (e.1 = true → p ∈ src) ∧
          (e.1 = false → indexedPaths.any (fun ip => ip.contains p) = true)) := by
    intro s iq hiq hs
    have hseeds : ∀ p ∈ toPathSet iq.2, p ∈ src := by
      intro p hp
      exact quantile_subset src k iq.2 (snd_mem_of_mem_enum hiq) p (mem_toPathSet.mp hp)
    have hres := c4_runShard fs indexedPaths headerSearchDirectories src fuel
      (toPathSet iq.2) s.memo s.traceLog hs.2 hseeds
    obtain ⟨t, ht⟩ := runShard_log_extend (unresolvedInsertKey fs)
      (unresolvedProcessFile fs indexedPaths headerSearchDirectories) fuel
      (toPathSet iq.2) s.memo ([] : List IncludeDirective) s.traceLog
    constructor
    · intro d hd
      rcases mem_foldl_directiveSetInsert _ _ d hd with h' | h'
      · rcases hs.1 d h' with ⟨hmem, hfail⟩
        refine ⟨?_, hfail⟩
        show d.includingFile ∈ logFiles (runShard (unresolvedInsertKey fs)
          (unresolvedProcessFile fs indexedPaths headerSearchDirectories) fuel
          (toPathSet iq.2) s.memo ([] : List IncludeDirective) s.traceLog).log
        rw [ht, logFiles_append]
        exact List.mem_append.mpr (Or.inl hmem)
      · exact hres.1 d h'
    · exact hres.2.1
  exact @foldl_preserve _ _
    (fun ds : UDriveState =>
      (∀ d ∈ ds.resultSet, d.includingFile ∈ logFiles ds.traceLog ∧
        fs.canonical (resolveIncludeDirective fs d headerSearchDirectories) =
          FilePath.emptyPath) ∧
      ∀ e ∈ ds.traceLog, ∀ p ∈ e.2, (e.1 = true → p ∈ src) ∧
        (e.1 = false → indexedPaths.any (fun ip => ip.contains p) = true))
    (uDriveStep fs indexedPaths headerSearchDirectories fuel (splitToQuantiles src k).length)
    (splitToQuantiles src k).enum ⟨[], [], [], [], true⟩ hstep
    ⟨fun d hd => absurd hd (List.not_mem_nil d), fun e he => absurd he (List.not_mem_nil e)⟩

/-- C4: in `getUnresolvedIncludeDirectives`, a directive whose resolution
fails is appended to the result; a directive resolving (canonically) to a
path contained in no indexed boundary path is neither enqueued for expansion
nor reported as unresolved; a resolved path contained in some indexed path
and not yet in the memo is enqueued.  Consequently, at the run level, every
reported directive comes from an extracted file and failed resolution, and a
file outside the indexed boundary that is not a source file is never
extracted, so unresolvable includes nested inside it never appear in the
result. -/
theorem boundary_containment (fs : FileSystem)
    (indexedPaths headerSearchDirectories : List FilePath)
    (hce : fs.canonical FilePath.emptyPath = FilePath.emptyPath)
    (hcn : ∀ p, p ≠ FilePath.emptyPath → fs.canonical p ≠ FilePath.emptyPath) :
    (∀ (memo : List FilePath) (acc : List IncludeDirective) (f : FilePath)
        (d : IncludeDirective), d ∈ getIncludeDirectives fs f →
      (resolveIncludeDirective fs d headerSearchDirectories = FilePath.emptyPath →
        d ∈ (unresolvedProcessFile fs indexedPaths headerSearchDirectories memo acc f).1) ∧
      (resolveIncludeDirective fs d headerSearchDirectories ≠ FilePath.emptyPath →
        indexedPaths.any (fun ip => ip.contains
          (fs.canonical (resolveIncludeDirective fs d headerSearchDirectories))) = false →
        fs.canonical (resolveIncludeDirective fs d headerSearchDirectories) ∉
          (unresolvedProcessFile fs indexedPaths headerSearchDirectories memo acc f).2 ∧
        d ∉ (unresolvedProcessFile fs indexedPaths headerSearchDirectories memo [] f).1) ∧
      (resolveIncludeDirective fs d headerSearchDirectories ≠ FilePath.emptyPath →
        fs.canonical (resolveIncludeDirective fs d headerSearchDirectories) ∉ memo →
        indexedPaths.any (fun ip => ip.contains
          (fs.canonical (resolveIncludeDirective fs d headerSearchDirectories))) = true →
        fs.canonical (resolveIncludeDirective fs d headerSearchDirectories) ∈
          (unresolvedProcessFile fs indexedPaths headerSearchDirectories memo acc f).2)) ∧
    (∀ (fuel k : Nat) (src : List FilePath),
      (∀ d ∈ (getUnresolvedIncludeDirectives fs fuel src indexedPaths
          headerSearchDirectories k).directives,
        d.includingFile ∈ logFiles (getUnresolvedIncludeDirectives fs fuel src indexedPaths
          headerSearchDirectories k).traceLog ∧
        resolveIncludeDirective fs d headerSearchDirectories = FilePath.emptyPath) ∧
      (∀ r : FilePath, r ∉ src →
        indexedPaths.any (fun ip => ip.contains r) = false →
        r ∉ logFiles (getUnresolvedIncludeDirectives fs fuel src indexedPaths
          headerSearchDirectories k).traceLog ∧
        ∀ d ∈ (getUnresolvedIncludeDirectives fs fuel src indexedPaths
          headerSearchDirectories k).directives, d.includingFile ≠ r)) := by
  constructor
  · intro memo acc f d hd
    have hfst : ∀ (a : List IncludeDirective),
        (unresolvedProcessFile fs indexedPaths headerSearchDirectories memo a f).1 =
          a ++ (getIncludeDirectives fs f).filter
            (fun d => decide (fs.canonical (resolveIncludeDirective fs d
              headerSearchDirectories) = FilePath.emptyPath)) := by
      intro a
      unfold unresolvedProcessFile
      rw [unresolvedDirLoop_eq]
    refine ⟨?_, ?_, ?_⟩
    · intro h0
      rw [hfst]
      refine List.mem_append.mpr (Or.inr (List.mem_filter.mpr ⟨hd, ?_⟩))
      rw [h0, hce]
      exact decide_eq_true rfl
    · intro hne hany
      constructor
      · intro hmem
        obtain ⟨d', _, hceq, _, _, hany'⟩ := unresolved_cand_spec fs indexedPaths
          headerSearchDirectories memo acc f _ hmem
        rw [hany'] at hany
        exact Bool.noConfusion hany
      · intro hmem
        rw [hfst, List.nil_append] at hmem
        rcases List.mem_filter.mp hmem with ⟨_, hdec⟩
        exact hcn _ hne (of_decide_eq_true hdec)
    · intro hne hmemo hany
      have hsnd : (unresolvedProcessFile fs indexedPaths headerSearchDirectories
          memo acc f).2 =
          (getIncludeDirectives fs f).filterMap (fun d =>
            if fs.canonical (resolveIncludeDirective fs d headerSearchDirectories) =
                FilePath.emptyPath then none
            else if fs.canonical (resolveIncludeDirective fs d headerSearchDirectories) ∈
                memo then none
            else if indexedPaths.any (fun ip => ip.contains
                (fs.canonical (resolveIncludeDirective fs d headerSearchDirectories)))
                = true then
              some (fs.canonical (resolveIncludeDirective fs d headerSearchDirectories))
            else none) := by
        unfold unresolvedProcessFile
        rw [unresolvedDirLoop_eq, List.nil_append]
      rw [hsnd]
      refine List.mem_filterMap.mpr ⟨d, hd, ?_⟩
      rw [if_neg (hcn _ hne), if_neg hmemo, if_pos hany]
  · intro fuel k src
    have hdrive := c4_drive fs indexedPaths headerSearchDirectories src fuel k
    have hnolog : ∀ r : FilePath, r ∉ src →
        indexedPaths.any (fun ip => ip.contains r) = false →
        r ∉ logFiles (getUnresolvedIncludeDirectives fs fuel src indexedPaths
          headerSearchDirectories k).traceLog := by
      intro r hrs hrany hrlog
      unfold logFiles at hrlog
      rcases List.mem_flatten.mp hrlog with ⟨l, hl, hrl⟩
      rcases List.mem_map.mp hl with ⟨e, he, rfl⟩
      have h := hdrive.2 e he r hrl
      cases hflag : e.1 with
      | true => exact hrs (h.1 hflag)
      | false =>
        rw [h.2 hflag] at hrany
        exact Bool.noConfusion hrany
    constructor
    · intro d hdd
      refine ⟨(hdrive.1 d hdd).1, ?_⟩
      by_contra hne
      exact hcn _ hne (hdrive.1 d hdd).2
    · intro r hrs hrany
      refine ⟨hnolog r hrs hrany, ?_⟩
      intro d hdd heq
      exact hnolog r hrs hrany (heq ▸ (hdrive.1 d hdd).1)

theorem boundary_containment_witness :
    fsCX.canonical FilePath.emptyPath = FilePath.emptyPath ∧
    (⟨false, [['z']]⟩ : FilePath) ∉ ([exA, exB] : List FilePath) ∧
    ([⟨true, []⟩] : List FilePath).any
      (fun ip => ip.contains ⟨false, [['z']]⟩) = false ∧
    ((⟨false, [['z']]⟩ : FilePath) ∉ logFiles (getUnresolvedIncludeDirectives fsCX 4
        [exA, exB] [⟨true, []⟩] [] 2).traceLog ∧
      ∀ d ∈ (getUnresolvedIncludeDirectives fsCX 4 [exA, exB] [⟨true, []⟩] []
        2).directives, d.includingFile ≠ ⟨false, [['z']]⟩) :=
  ⟨rfl, by decide, by decide,
    ((boundary_containment fsCX [⟨true, []⟩] [] rfl (fun p h => h)).2 4 2
      [exA, exB]).2 ⟨false, [['z']]⟩ (by decide) (by decide)⟩

end IncludeProcessing
